import Mathlib

/-!
Verification of the torrent-renamer core against its specification.

The Rust sources are shallowly embedded:
* `src/crates/app/src/file_intent.rs`   — action enum, filter rules, classifier
* `src/crates/app/src/app_folder.rs`    — file records, tracker, change queue, flush
* `src/crates/app/src/app_folder_cache.rs` — metadata cache construction
* `src/crates/app/src/bookmarks.rs`     — bookmark table (de)serialization
* `src/crates/tvdb/src/api.rs`          — paginated episode fetch
* `src/crates/app/src/file_descriptor.rs` — filename parser and sanitizers

Rust `HashMap<K, V>` fields are embedded as functions `K → Option V`
(resp. `K → Finset ℕ` for `HashMap<K, HashSet<usize>>`, whose absent keys
behave as the empty set in the source); `u32` arithmetic that can wrap is
taken modulo 2^32; fallible indexing uses `List.get?`.
-/

namespace Renamer

/-- `Action` from `file_intent.rs`. -/
inductive Action where
  | rename
  | complete
  | ignore
  | delete
  | whitelist
deriving DecidableEq

/-- `EpisodeKey` from `app_folder_cache.rs`. -/
structure EpisodeKey where
  season : ℕ
  episode : ℕ
deriving DecidableEq

/-- `AppFile` from `app_folder.rs` (one file record). -/
structure AppFile where
  src : String
  src_descriptor : Option EpisodeKey
  action : Action
  dest : String
  is_enabled : Bool
deriving DecidableEq

/-- `FileTracker` from `app_folder.rs`: the derived index over the records.
`pending_writes : HashMap<String, HashSet<usize>>` is embedded as a
`Finset ℕ`-valued function (a missing key acts as the empty set, exactly as
`add_pending_write` / `remove_pending_write` treat it), `existing_sources`
as an `Option ℕ`-valued function, and the `enum_map` histogram as a plain
function. -/
structure FileTracker where
  pending_writes : String → Finset ℕ
  existing_sources : String → Option ℕ
  action_count : Action → ℕ

/-- `FileTracker::new` / `FileTracker::clear`. -/
def FileTracker.new : FileTracker :=
  { pending_writes := fun _ => ∅
    existing_sources := fun _ => none
    action_count := fun _ => 0 }

/-- `FileTracker::insert_existing_source`. -/
def FileTracker.insert_existing_source (t : FileTracker) (src : String) (index : ℕ) :
    FileTracker :=
  { t with existing_sources := fun s => if s = src then some index else t.existing_sources s }

/-- `FileTracker::add_pending_write`. -/
def FileTracker.add_pending_write (t : FileTracker) (dest : String) (index : ℕ) :
    FileTracker :=
  { t with pending_writes := fun d =>
      if d = dest then insert index (t.pending_writes dest) else t.pending_writes d }

/-- `FileTracker::remove_pending_write`. -/
def FileTracker.remove_pending_write (t : FileTracker) (dest : String) (index : ℕ) :
    FileTracker :=
  { t with pending_writes := fun d =>
      if d = dest then (t.pending_writes dest).erase index else t.pending_writes d }

/-- `FileTracker::check_if_write_conflicts`. -/
def FileTracker.check_if_write_conflicts (t : FileTracker) (dest : String) : Bool :=
  let total0 : ℕ := if (t.existing_sources dest).isSome then 1 else 0
  if total0 > 1 then
    true
  else
    total0 + (t.pending_writes dest).card > 1

/-- `AppFileChange` from `app_folder.rs` (a change-queue entry). -/
inductive AppFileChange where
  | setAction (index : ℕ) (newAction : Action)
  | isEnabled (index : ℕ) (newIsEnabled : Bool)
  | destination (index : ℕ) (newDest : String)
deriving DecidableEq

/-- Index addressed by a change-queue entry. -/
def AppFileChange.index : AppFileChange → ℕ
  | .setAction i _ => i
  | .isEnabled i _ => i
  | .destination i _ => i

/-- State folded over by `flush_file_changes_acquired`: the record vector,
the tracker, and the running `total_changes` counter. -/
structure FlushState where
  file_list : List AppFile
  file_tracker : FileTracker
  total_changes : ℕ

/-- One iteration of the `for file_change in change_queue` loop of
`flush_file_changes_acquired` (app_folder.rs lines 856-942).  Entries whose
index is out of range are skipped (`None => continue`). -/
def applyFileChange (s : FlushState) (c : AppFileChange) : FlushState :=
  match c with
  | .setAction index newAction =>
    match s.file_list.get? index with
    | none => s
    | some file =>
      let oldAction := file.action
      let fileList := s.file_list.set index { file with action := newAction }
      if oldAction = newAction then
        { s with file_list := fileList }
      else
        let ac1 : Action → ℕ := fun a =>
          if a = oldAction then s.file_tracker.action_count a - 1
          else s.file_tracker.action_count a
        let ac2 : Action → ℕ := fun a => if a = newAction then ac1 a + 1 else ac1 a
        let tracker1 := { s.file_tracker with action_count := ac2 }
        if !file.is_enabled then
          { file_list := fileList, file_tracker := tracker1,
            total_changes := s.total_changes }
        else if oldAction ≠ Action.rename ∧ newAction ≠ Action.rename then
          { file_list := fileList, file_tracker := tracker1,
            total_changes := s.total_changes }
        else
          let tracker2 :=
            if oldAction = Action.rename then
              tracker1.remove_pending_write file.dest index
            else
              tracker1.add_pending_write file.dest index
          { file_list := fileList, file_tracker := tracker2,
            total_changes := s.total_changes + 1 }
  | .isEnabled index newIsEnabled =>
    match s.file_list.get? index with
    | none => s
    | some file =>
      let fileList := s.file_list.set index { file with is_enabled := newIsEnabled }
      if file.is_enabled = newIsEnabled then
        { s with file_list := fileList }
      else if file.action ≠ Action.rename then
        { s with file_list := fileList }
      else
        let tracker2 :=
          if newIsEnabled then
            s.file_tracker.add_pending_write file.dest index
          else
            s.file_tracker.remove_pending_write file.dest index
        { file_list := fileList, file_tracker := tracker2,
          total_changes := s.total_changes + 1 }
  | .destination index newDest =>
    match s.file_list.get? index with
    | none => s
    | some file =>
      if file.dest = newDest then
        s
      else if !file.is_enabled ∨ file.action ≠ Action.rename then
        { s with file_list := s.file_list.set index { file with dest := newDest } }
      else
        let tracker2 :=
          (s.file_tracker.remove_pending_write file.dest index).add_pending_write
            newDest index
        { file_list := s.file_list.set index { file with dest := newDest },
          file_tracker := tracker2,
          total_changes := s.total_changes + 1 }

/-- `flush_file_changes_acquired` (app_folder.rs lines 850-947): replay the
queue entries in order and return the final records, tracker and
`total_changes`. -/
def flush_file_changes_acquired (file_list : List AppFile) (file_tracker : FileTracker)
    (change_queue : List AppFileChange) : FlushState :=
  change_queue.foldl applyFileChange
    { file_list := file_list, file_tracker := file_tracker, total_changes := 0 }

/-- Per-folder mutable state touched by the change-queue engine: the record
vector, the tracker and the queue (`AppFolder.file_list` / `file_tracker` /
`change_queue`). -/
structure FolderState where
  file_list : List AppFile
  file_tracker : FileTracker
  change_queue : List AppFileChange

/-- `AppFolder::flush_file_changes`: replay the queue, clear it, and return
the number reported by `flush_file_changes_acquired`. -/
def AppFolder.flush_file_changes (s : FolderState) : FolderState × ℕ :=
  let r := flush_file_changes_acquired s.file_list s.file_tracker s.change_queue
  (⟨r.file_list, r.file_tracker, []⟩, r.total_changes)

/-- `AppFileMutableContext::set_action` (app_folder.rs lines 826-837): queue a
`SetAction` entry, then the implicit `Destination` entry when switching a
record with an empty `dest` to `Rename`, then the implicit disabling
`IsEnabled` entry when switching to `Delete`.  (The source indexes
`file_list[index]` directly and would panic out of range; the `none` branch
is therefore never exercised by callers.) -/
def AppFileMutableContext.set_action (s : FolderState) (new_action : Action)
    (index : ℕ) : FolderState :=
  let q1 := s.change_queue ++ [AppFileChange.setAction index new_action]
  match s.file_list.get? index with
  | none => { s with change_queue := q1 }
  | some file =>
    let q2 :=
      if file.action ≠ Action.rename ∧ new_action = Action.rename ∧ file.dest = "" then
        q1 ++ [AppFileChange.destination index file.src]
      else q1
    let q3 :=
      if new_action = Action.delete then
        q2 ++ [AppFileChange.isEnabled index false]
      else q2
    { s with change_queue := q3 }

/-- `AppFileMutableContext::set_is_enabled`. -/
def AppFileMutableContext.set_is_enabled (s : FolderState) (new_is_enabled : Bool)
    (index : ℕ) : FolderState :=
  { s with change_queue := s.change_queue ++ [AppFileChange.isEnabled index new_is_enabled] }

/-- `AppFileMutableContext::set_dest`. -/
def AppFileMutableContext.set_dest (s : FolderState) (new_dest : String)
    (index : ℕ) : FolderState :=
  { s with change_queue := s.change_queue ++ [AppFileChange.destination index new_dest] }

/-- `get_is_conflict` from the `generate_app_file_context_getters!` macro
(app_folder.rs lines 794-800).  (The source indexes `file_list[index]`
directly and would panic out of range, so the `none` branch is never
exercised by callers.) -/
def AppFileContext.get_is_conflict (file_list : List AppFile)
    (file_tracker : FileTracker) (index : ℕ) : Bool :=
  match file_list.get? index with
  | none => false
  | some file =>
    if !file.is_enabled ∨ file.action ≠ Action.rename then false
    else file_tracker.check_if_write_conflicts file.dest

/-- One iteration of the tracker-seeding loop of `update_file_intents`
(app_folder.rs lines 386-389): record `(src, index)` in `existing_sources`
and bump the action histogram. -/
def seedTrackerStep (t : FileTracker) (p : ℕ × AppFile) : FileTracker :=
  let t1 := t.insert_existing_source p.2.src p.1
  { t1 with action_count := fun a =>
      if a = p.2.action then t1.action_count a + 1 else t1.action_count a }

/-- The tracker produced by `update_file_intents` before the automatic
enabling pass: `clear()` followed by the seeding loop. -/
def rebuildFileTracker (file_list : List AppFile) : FileTracker :=
  file_list.enum.foldl seedTrackerStep FileTracker.new

/-- The change-queue entries produced by the automatic-enable loop of
`update_file_intents` (app_folder.rs lines 392-400): `SetEnabled(i, true)`
for every record whose action is `Rename`, in index order. -/
def autoEnableRenameQueue (file_list : List AppFile) : List AppFileChange :=
  file_list.enum.filterMap (fun p =>
    if p.2.action = Action.rename then some (AppFileChange.isEnabled p.1 true) else none)

/-- The in-memory effect of a successful rescan (`update_file_intents`,
app_folder.rs lines 372-403): sort the freshly classified records by `src`,
wholesale-replace the record vector, clear and reseed the tracker, queue the
automatic enables, and flush once. -/
def update_file_intents_applied (new_file_list : List AppFile) : FolderState × ℕ :=
  let files := List.insertionSort (fun a b => a.src ≤ b.src) new_file_list
  AppFolder.flush_file_changes
    ⟨files, rebuildFileTracker files, autoEnableRenameQueue files⟩

/-- Invariant I1 of §3: the histogram counts the records of each action. -/
def InvActionCount (file_list : List AppFile) (t : FileTracker) : Prop :=
  ∀ a, t.action_count a = file_list.countP (fun f => decide (f.action = a))

/-- The per-record condition of invariant I3 of §3. -/
def PWPred (f : AppFile) (d : String) : Prop :=
  f.is_enabled = true ∧ f.action = Action.rename ∧ f.dest = d

instance (f : AppFile) (d : String) : Decidable (PWPred f d) := by
  unfold PWPred; infer_instance

/-- Invariant I3 of §3: `i ∈ pending_writes[d]` iff record `i` is an enabled
rename whose current destination is `d`. -/
def InvPendingWrites (file_list : List AppFile) (t : FileTracker) : Prop :=
  ∀ d i, i ∈ t.pending_writes d ↔
    ∃ f, file_list.get? i = some f ∧ PWPred f d

/-- Invariant I2 of §3: `(src, i) ∈ existing_sources` iff `record[i].src = src`. -/
def InvExistingSources (file_list : List AppFile) (t : FileTracker) : Prop :=
  ∀ src i, t.existing_sources src = some i ↔
    ∃ f, file_list.get? i = some f ∧ f.src = src

/-- Two concrete records: an enabled rename onto `"b"`, and a second record
whose source is `"b"`. -/
def c2files : List AppFile :=
  [⟨"a", none, Action.rename, "b", true⟩, ⟨"b", none, Action.ignore, "", false⟩]

/-- The tracker matching `c2files` (what a rescan followed by the automatic
enable pass produces). -/
def c2tracker : FileTracker :=
  { pending_writes := fun d => if d = "b" then {0} else ∅
    existing_sources := fun s => if s = "a" then some 0 else if s = "b" then some 1 else none
    action_count := fun a =>
      if a = Action.rename then 1 else if a = Action.ignore then 1 else 0 }

/-- The record-vector effect of replaying a single change-queue entry
(the `file_list` projection of `applyFileChange`). -/
def applyChangeToFiles (files : List AppFile) (c : AppFileChange) : List AppFile :=
  match c with
  | .setAction index newAction =>
    match files.get? index with
    | none => files
    | some file => files.set index { file with action := newAction }
  | .isEnabled index newIsEnabled =>
    match files.get? index with
    | none => files
    | some file => files.set index { file with is_enabled := newIsEnabled }
  | .destination index newDest =>
    match files.get? index with
    | none => files
    | some file => files.set index { file with dest := newDest }

/-- Exactly the condition under which `flush_file_changes_acquired` increments
`total_changes` for one entry: the entry changed the pending-writes index
(an action change of an enabled record into or out of `Rename`, an enable
toggle of a `Rename` record, or a destination change of an enabled `Rename`
record). -/
def changeCounted (files : List AppFile) (c : AppFileChange) : Bool :=
  match c with
  | .setAction index newAction =>
    match files.get? index with
    | none => false
    | some file =>
      decide (¬ file.action = newAction) && file.is_enabled &&
        (decide (file.action = Action.rename) || decide (newAction = Action.rename))
  | .isEnabled index newIsEnabled =>
    match files.get? index with
    | none => false
    | some file =>
      decide (¬ file.is_enabled = newIsEnabled) && decide (file.action = Action.rename)
  | .destination index newDest =>
    match files.get? index with
    | none => false
    | some file =>
      decide (¬ file.dest = newDest) && file.is_enabled &&
        decide (file.action = Action.rename)

/-- Replay of the queue against the records alone, counting the entries
satisfying `changeCounted`. -/
def replayStep (p : List AppFile × ℕ) (c : AppFileChange) : List AppFile × ℕ :=
  (applyChangeToFiles p.1 c, p.2 + if changeCounted p.1 c then 1 else 0)

/-- Number of queue entries that modify the pending-writes index. -/
def pendingWriteChangeCount (files : List AppFile) (queue : List AppFileChange) : ℕ :=
  (queue.foldl replayStep (files, 0)).2

/-- The single record of the C4 scenario: action `Ignore`, empty `dest`,
disabled. -/
def c4file : AppFile := ⟨"a.mkv", none, Action.ignore, "", false⟩

/-- The C4 scenario start state: one record, freshly rebuilt tracker, empty
queue. -/
def c4s0 : FolderState := ⟨[c4file], rebuildFileTracker [c4file], []⟩

/-- After queueing `SetAction(0, Rename)`. -/
def c4s1 : FolderState := AppFileMutableContext.set_action c4s0 Action.rename 0

/-- After the first flush. -/
def c4s2 : FolderState := (AppFolder.flush_file_changes c4s1).1

/-- After queueing `SetEnabled(0, true)`. -/
def c4s3 : FolderState := AppFileMutableContext.set_is_enabled c4s2 true 0

/-- After queueing `SetAction(0, Delete)`. -/
def c4s4 : FolderState := AppFileMutableContext.set_action c4s3 Action.delete 0

/-- After the second flush. -/
def c4s5 : FolderState := (AppFolder.flush_file_changes c4s4).1

/-- `Series` from `tvdb/models.rs`, restricted to the canonical fields the
verified components read (`id`, `name`); the optional presentational fields
are not consulted by any claim. -/
structure Series where
  id : ℕ
  name : String
deriving DecidableEq

/-- `Episode` from `tvdb/models.rs`, restricted to the fields the verified
components read (`id`, `season` = `airedSeason`, `episode` =
`airedEpisodeNumber`, `name` = `episodeName`). -/
structure Episode where
  id : ℕ
  season : ℕ
  episode : ℕ
  name : Option String
deriving DecidableEq

/-- The `u32` sort key `season*1000 + episode` computed by the comparator in
`AppFolderCache::new` (wrapping on overflow). -/
def episodeSortValue (e : Episode) : ℕ := (e.season * 1000 + e.episode) % 4294967296

/-- The `(season, episode)` key inserted into the episode cache. -/
def episodeKeyOf (e : Episode) : EpisodeKey := ⟨e.season, e.episode⟩

/-- `AppFolderCache` from `app_folder_cache.rs`; the `HashMap` is embedded
as an `Option`-valued function. -/
structure AppFolderCache where
  series : Series
  episodes : List Episode
  episode_cache : EpisodeKey → Option ℕ

/-- The cache-building loop of `AppFolderCache::new`: insert
`(key, index)` for each episode in index order (later inserts overwrite). -/
def buildEpisodeCacheFrom (m : EpisodeKey → Option ℕ) (ps : List (ℕ × Episode)) :
    EpisodeKey → Option ℕ :=
  ps.foldl (fun m p => fun k => if k = episodeKeyOf p.2 then some p.1 else m k) m

/-- `AppFolderCache::new` (app_folder_cache.rs lines 16-41): sort the
episodes by the `u32` key `season*1000 + episode`, then build the
key-to-index map.  The source uses `sort_unstable_by`, whose result is
specified only as a sorted permutation; it is modelled by insertion sort,
one such refinement. -/
def AppFolderCache.new (series : Series) (episodes : List Episode) : AppFolderCache :=
  let sorted := List.insertionSort
    (fun a b => episodeSortValue a ≤ episodeSortValue b) episodes
  { series := series
    episodes := sorted
    episode_cache := buildEpisodeCacheFrom (fun _ => none) sorted.enum }

instance : IsTotal Episode (fun a b => episodeSortValue a ≤ episodeSortValue b) :=
  ⟨fun _ _ => le_total _ _⟩

instance : IsTrans Episode (fun a b => episodeSortValue a ≤ episodeSortValue b) :=
  ⟨fun _ _ _ hab hbc => le_trans hab hbc⟩

/-- `BookmarkInternal` from `bookmarks.rs`: the on-disk entry shape, with
`skip_serializing_none` optional flags. -/
structure BookmarkInternal where
  id : String
  is_read : Option Bool
  is_unread : Option Bool
  is_favourite : Option Bool
deriving DecidableEq

/-- `Bookmark` from `bookmarks.rs`. -/
structure Bookmark where
  is_read : Bool
  is_unread : Bool
  is_favourite : Bool
deriving DecidableEq

/-- `Bookmark::is_any_selected`. -/
def Bookmark.is_any_selected (b : Bookmark) : Bool :=
  b.is_read || b.is_unread || b.is_favourite

/-- `BookmarkTable` from `bookmarks.rs`; the `HashMap<String, Bookmark>` is
embedded as an association list whose key uniqueness (automatic for a
`HashMap`) is carried as a hypothesis where needed. -/
structure BookmarkTable where
  bookmarks : List (String × Bookmark)

/-- `HashMap::insert`: replace the entry when the key exists, append
otherwise. -/
def bookmarkTableInsert (t : List (String × Bookmark)) (id : String) (b : Bookmark) :
    List (String × Bookmark) :=
  if t.any (fun p => decide (p.1 = id)) then
    t.map (fun p => if p.1 = id then (id, b) else p)
  else t ++ [(id, b)]

/-- `HashMap` lookup on the association-list embedding. -/
def bookmarkLookup (t : BookmarkTable) (id : String) : Option Bookmark :=
  (t.bookmarks.find? (fun p => decide (p.1 = id))).map Prod.snd

/-- The entry pushed by `serialize_bookmarks` for a surviving bookmark:
`Some(true)` for set flags, `None` for clear ones (fields in declaration
order: id, is_read, is_unread, is_favourite). -/
def encodePair (p : String × Bookmark) : BookmarkInternal :=
  ⟨p.1,
    if p.2.is_read then some true else none,
    if p.2.is_unread then some true else none,
    if p.2.is_favourite then some true else none⟩

/-- The per-entry body of the `serialize_bookmarks` loop (bookmarks.rs lines
74-85): skip entries with no selected flag, otherwise push the sparse
entry. -/
def serializeEntry (p : String × Bookmark) : Option BookmarkInternal :=
  if p.2.is_any_selected then some (encodePair p) else none

/-- `serialize_bookmarks` (bookmarks.rs lines 71-88), modelled at the level
of the `Vec<BookmarkInternal>` handed to `serde_json` (whose JSON encoding
of that vector is injective and always succeeds on it). -/
def serialize_bookmarks (table : BookmarkTable) : List BookmarkInternal :=
  table.bookmarks.filterMap serializeEntry

/-- The `Bookmark` recovered from one on-disk entry (`unwrap_or(false)`). -/
def decodeB (e : BookmarkInternal) : Bookmark :=
  ⟨e.is_read.getD false, e.is_unread.getD false, e.is_favourite.getD false⟩

/-- The table pair recovered from one on-disk entry. -/
def decodePair (e : BookmarkInternal) : String × Bookmark := (e.id, decodeB e)

/-- `deserialize_bookmarks` (bookmarks.rs lines 57-69), modelled from the
decoded `Vec<BookmarkInternal>`: insert each entry into a fresh table. -/
def deserialize_bookmarks (entries : List BookmarkInternal) : BookmarkTable :=
  { bookmarks := entries.foldl (fun t e => bookmarkTableInsert t e.id (decodeB e)) [] }

/-- `EpisodesPageLinks` from `tvdb/api.rs`. -/
structure EpisodesPageLinks where
  next : Option ℕ
  last : Option ℕ
deriving DecidableEq

/-- `EpisodesPage` from `tvdb/api.rs`. -/
structure EpisodesPage where
  episodes : Option (List Episode)
  links : Option EpisodesPageLinks
deriving DecidableEq

/-- `LoginSession::get_episodes` (api.rs lines 203-229).  The per-page HTTP
fetch `get_episodes_page(id, page)` is abstracted as the function argument
`fetchPage`; `ApiError` is abstracted as `String`.  The source iterates
`(next_page..last_page)` — an exclusive Rust range, modelled by
`List.range' next (last - next)` — and `join_all(...).into_iter().flatten()`
keeps the pages' order and silently drops failed pages. -/
def get_episodes (fetchPage : ℕ → Except String EpisodesPage) :
    Except String (List Episode) :=
  match fetchPage 1 with
  | .error err => .error err
  | .ok page1 =>
    let all0 := match page1.episodes with
      | some es => es
      | none => []
    match page1.links with
    | none => .ok all0
    | some links =>
      let nextPage := links.next.getD 0
      let lastPage := links.last.getD 0
      let pages := (List.range' nextPage (lastPage - nextPage)).map fetchPage
      .ok (pages.foldl (fun acc r =>
        match r with
        | .ok page =>
          match page.episodes with
          | some es => acc ++ es
          | .none => acc
        | .error _ => acc) all0)

/-- A two-page server: page 1 carries one episode and links `next = 2`,
`last = 2`; page 2 carries a second episode. -/
def c5fetch : ℕ → Except String EpisodesPage := fun n =>
  if n = 1 then .ok ⟨some [⟨100, 1, 1, none⟩], some ⟨some 2, some 2⟩⟩
  else if n = 2 then .ok ⟨some [⟨200, 1, 2, none⟩], some ⟨none, some 2⟩⟩
  else .error "no such page"

/-- One element of a regular expression, covering exactly the constructs
used by `file_descriptor.rs`: single-character classes, greedy `*` and `+`
over a class, and flat capturing-group delimiters. -/
inductive RElem where
  | one (p : Char → Bool)
  | star (p : Char → Bool)
  | plus (p : Char → Bool)
  | openG
  | closeG

/-- Backtracking matcher with Perl-style greedy (leftmost-first) semantics,
as the `regex` crate produces for the alternation-free patterns of
`file_descriptor.rs`.  Matches a prefix of `s` against `pat`; `stack` holds
the input as it stood at each unclosed `openG`.  Returns the captured
groups (in pattern order — the groups used are never nested) and the
remaining input after the match.  Greedy quantifiers try the longest
extent first. -/
def matchSeq : List RElem → List Char → List (List Char) →
    Option (List (List Char) × List Char)
  | [], s, _ => some ([], s)
  | RElem.openG :: rest, s, stack => matchSeq rest s (s :: stack)
  | RElem.closeG :: rest, s, stack =>
    match stack with
    | [] => none
    | start :: stack' =>
      match matchSeq rest s stack' with
      | none => none
      | some (caps, rem) => some (start.take (start.length - s.length) :: caps, rem)
  | RElem.one _ :: _, [], _ => none
  | RElem.one p :: rest, c :: s, stack =>
    if p c then matchSeq rest s stack else none
  | RElem.star p :: rest, s, stack =>
    ((List.range ((s.takeWhile p).length + 1)).reverse).findSome?
      (fun n => matchSeq rest (s.drop n) stack)
  | RElem.plus p :: rest, s, stack =>
    (((List.range ((s.takeWhile p).length)).reverse).map (fun n => n + 1)).findSome?
      (fun n => matchSeq rest (s.drop n) stack)

/-- Unanchored leftmost search (`Regex::captures`): try each start
position from the left; returns the text before the match, the captures,
and the text after the match. -/
def searchFrom (pat : List RElem) : List Char →
    Option (List Char × List (List Char) × List Char)
  | [] =>
    match matchSeq pat [] [] with
    | some (caps, rem) => some ([], caps, rem)
    | none => none
  | c :: s' =>
    match matchSeq pat (c :: s') [] with
    | some (caps, rem) => some ([], caps, rem)
    | none =>
      match searchFrom pat s' with
      | none => none
      | some (pre, caps, rem) => some (c :: pre, caps, rem)

/-- `Regex::replace_all` for patterns that cannot match the empty string:
repeatedly replace the leftmost match and continue after it.  `fuel` bounds
the iteration; `input.length + 1` suffices since every match of the
patterns used consumes at least one character. -/
def replaceAllAux (pat : List RElem) (repl : List Char) :
    ℕ → List Char → List Char
  | 0, s => s
  | fuel + 1, s =>
    match searchFrom pat s with
    | none => s
    | some (pre, _, rem) => pre ++ repl ++ replaceAllAux pat repl fuel rem

/-- `Regex::replace_all` on strings. -/
def regexReplaceAll (pat : List RElem) (repl : List Char) (value : String) : String :=
  String.mk (replaceAllAux pat repl (value.toList.length + 1) value.toList)

def isTitleChar (c : Char) : Bool := c.isAlpha || c = '.' || c.isWhitespace || c = '-'

def isAlnumChar (c : Char) : Bool := c.isAlpha || c.isDigit

def isAnyChar (c : Char) : Bool := !(c = '\n')

def isWordChar (c : Char) : Bool := isAlnumChar c || c = '_'

/-- The apostrophe character (`[',\(\)\[\]]` includes it). -/
def apostropheChar : Char := Char.ofNat 39

def isRemovedChar (c : Char) : Bool :=
  c = apostropheChar || c = ',' || c = '(' || c = ')' || c = '[' || c = ']'

def isOpenBracket (c : Char) : Bool := c = '[' || c = '('

def isCloseBracket (c : Char) : Bool := c = ')' || c = ']'

/-- A literal character sequence as regex elements. -/
def lit (cs : List Char) : List RElem := cs.map (fun c => RElem.one (fun x => x = c))

/-- `TITLE_PATTERN`: `([a-zA-Z\.\s\-]*)[^a-zA-Z\.\s\-]*`. -/
def titlePattern : List RElem :=
  [RElem.openG, RElem.star isTitleChar, RElem.closeG,
    RElem.star (fun c => !isTitleChar c)]

/-- `EXT_PATTERN`: `\.([a-zA-Z0-9]+)`. -/
def extPattern : List RElem :=
  [RElem.one (fun c => c = '.'), RElem.openG, RElem.plus isAlnumChar, RElem.closeG]

/-- `[Ss](\d+)\s*[Ee](\d+)(.*)` between title and extension. -/
def seasonEpisodePattern1 : List RElem :=
  titlePattern ++
    [RElem.one (fun c => c = 'S' || c = 's'),
      RElem.openG, RElem.plus Char.isDigit, RElem.closeG,
      RElem.star Char.isWhitespace,
      RElem.one (fun c => c = 'E' || c = 'e'),
      RElem.openG, RElem.plus Char.isDigit, RElem.closeG,
      RElem.openG, RElem.star isAnyChar, RElem.closeG] ++
    extPattern

/-- `[Ss]eason\s*(\d+)\s*[Ee]pisode\s*(\d+)(.*)` between title and extension. -/
def seasonEpisodePattern2 : List RElem :=
  titlePattern ++
    [RElem.one (fun c => c = 'S' || c = 's')] ++ lit "eason".toList ++
    [RElem.star Char.isWhitespace,
      RElem.openG, RElem.plus Char.isDigit, RElem.closeG,
      RElem.star Char.isWhitespace,
      RElem.one (fun c => c = 'E' || c = 'e')] ++ lit "pisode".toList ++
    [RElem.star Char.isWhitespace,
      RElem.openG, RElem.plus Char.isDigit, RElem.closeG,
      RElem.openG, RElem.star isAnyChar, RElem.closeG] ++
    extPattern

/-- `(\d+)\s*x\s*(\d+)(.*)` between title and extension. -/
def seasonEpisodePattern3 : List RElem :=
  titlePattern ++
    [RElem.openG, RElem.plus Char.isDigit, RElem.closeG,
      RElem.star Char.isWhitespace,
      RElem.one (fun c => c = 'x'),
      RElem.star Char.isWhitespace,
      RElem.openG, RElem.plus Char.isDigit, RElem.closeG,
      RElem.openG, RElem.star isAnyChar, RElem.closeG] ++
    extPattern

/-- `[^\w]+(\d)(\d\d)[^\w]+(.*)` between title and extension. -/
def seasonEpisodePattern4 : List RElem :=
  titlePattern ++
    [RElem.plus (fun c => !isWordChar c),
      RElem.openG, RElem.one Char.isDigit, RElem.closeG,
      RElem.openG, RElem.one Char.isDigit, RElem.one Char.isDigit, RElem.closeG,
      RElem.plus (fun c => !isWordChar c),
      RElem.openG, RElem.star isAnyChar, RElem.closeG] ++
    extPattern

/-- `TAG_REGEX`: `[\[\(]([a-zA-Z0-9]{2,})[\]\)]`. -/
def tagPattern : List RElem :=
  [RElem.one isOpenBracket,
    RElem.openG, RElem.one isAlnumChar, RElem.plus isAlnumChar, RElem.closeG,
    RElem.one isCloseBracket]

/-- `REMOVE_REGEX`: `[',\(\)\[\]]`. -/
def removePattern : List RElem := [RElem.one isRemovedChar]

/-- `REMOVE_TAGS`: `[\[\(].*[\)\]]`. -/
def removeTagsPattern : List RElem :=
  [RElem.one isOpenBracket, RElem.star isAnyChar, RElem.one isCloseBracket]

/-- `REPLACE_REGEX`: `[^a-zA-Z0-9]+`. -/
def collapsePattern : List RElem := [RElem.plus (fun c => !isAlnumChar c)]

/-- `FileDescriptor` from `file_descriptor.rs`. -/
structure FileDescriptor where
  title : String
  season : ℕ
  episode : ℕ
  tags : List String
  extension : String

/-- `str::parse::<u32>()` followed by `unwrap_or(0)`: the numeric value of
an all-digit string when it fits in a `u32`, otherwise 0. -/
def parseU32 (cs : List Char) : ℕ :=
  if cs ≠ [] ∧ cs.all Char.isDigit then
    let v := cs.foldl (fun acc c => acc * 10 + (c.toNat - 48)) 0
    if v < 4294967296 then v else 0
  else 0

/-- The iteration of `TAG_REGEX.captures_iter` in `find_tags`: successive
non-overlapping leftmost matches, collecting capture 1 of each. -/
def findTagsAux (fuel : ℕ) : List Char → List (List Char) :=
  match fuel with
  | 0 => fun _ => []
  | fuel + 1 => fun s =>
    match searchFrom tagPattern s with
    | none => []
    | some (_, caps, rem) => caps.headD [] :: findTagsAux fuel rem

/-- `find_tags` (file_descriptor.rs lines 17-24). -/
def find_tags (tags_str : String) : List String :=
  (findTagsAux (tags_str.toList.length + 1) tags_str.toList).map String.mk

/-- Build the `FileDescriptor` from the five capture groups
`(title, season, episode, tail, extension)` as lines 39-45 do. -/
def descriptorOfCaptures (caps : List (List Char)) : Option FileDescriptor :=
  match caps with
  | [t, se, ep, tail, ext] =>
    some { title := String.mk t
           season := parseU32 se
           episode := parseU32 ep
           tags := find_tags (String.mk tail)
           extension := String.mk ext }
  | _ => none

/-- `get_descriptor` (file_descriptor.rs lines 27-49): try the four
season/episode patterns in order; the first that matches wins.
(Pattern 4 yields four digit-captures `(\d)(\d\d)`, read as season = first
digit, episode = next two; its capture list still has five entries in
order, so `descriptorOfCaptures` applies unchanged.) -/
def get_descriptor (filename : String) : Option FileDescriptor :=
  match searchFrom seasonEpisodePattern1 filename.toList with
  | some (_, caps, _) => descriptorOfCaptures caps
  | none =>
    match searchFrom seasonEpisodePattern2 filename.toList with
    | some (_, caps, _) => descriptorOfCaptures caps
    | none =>
      match searchFrom seasonEpisodePattern3 filename.toList with
      | some (_, caps, _) => descriptorOfCaptures caps
      | none =>
        match searchFrom seasonEpisodePattern4 filename.toList with
        | some (_, caps, _) => descriptorOfCaptures caps
        | none => none

/-- Modelled from the spec: the `transliterate` module is referenced by
`file_descriptor.rs` but its source file is not in the repository snapshot.
§4.1/§9 describe it as a fixed table mapping common accented Latin
characters to their closest ASCII approximation (á→a, ñ→n, ß→ss, …),
leaving every other character — in particular all of ASCII — unchanged. -/
def transliterateChar (c : Char) : List Char :=
  if c = 'á' ∨ c = 'à' ∨ c = 'â' ∨ c = 'ä' then ['a']
  else if c = 'é' ∨ c = 'è' ∨ c = 'ê' ∨ c = 'ë' then ['e']
  else if c = 'í' ∨ c = 'ì' ∨ c = 'î' ∨ c = 'ï' then ['i']
  else if c = 'ó' ∨ c = 'ò' ∨ c = 'ô' ∨ c = 'ö' then ['o']
  else if c = 'ú' ∨ c = 'ù' ∨ c = 'û' ∨ c = 'ü' then ['u']
  else if c = 'ñ' then ['n']
  else if c = 'ç' then ['c']
  else if c = 'ß' then ['s', 's']
  else [c]

/-- Modelled from the spec (see `transliterateChar`). -/
def transliterate (cs : List Char) : List Char :=
  cs.foldr (fun c acc => transliterateChar c ++ acc) []

/-- `str::trim`: drop whitespace from both ends. -/
def trimChars (cs : List Char) : List Char :=
  ((cs.dropWhile Char.isWhitespace).reverse.dropWhile Char.isWhitespace).reverse

/-- `.replace(' ', ".")` on the space-separated words. -/
def spacesToDots (cs : List Char) : List Char :=
  cs.map (fun c => if c = ' ' then '.' else c)

/-- `clean_series_name` (file_descriptor.rs lines 51-63): strip bracketed
alphanumeric tags, strip the characters `',()[]`, collapse runs of
non-alphanumerics to single spaces, trim, and replace spaces with dots. -/
def clean_series_name (value : String) : String :=
  let s1 := regexReplaceAll tagPattern [] value
  let s2 := regexReplaceAll removePattern [] s1
  let s3 := regexReplaceAll collapsePattern [' '] s2
  String.mk (spacesToDots (trimChars s3.toList))

/-- `clean_episode_title` (file_descriptor.rs lines 65-78), in the source's
pass order: first strip the characters `',()[]` (`REMOVE_REGEX`), then run
`REMOVE_TAGS` (`[\[\(].*[\)\]]`), then transliterate, collapse
non-alphanumerics, trim, and replace spaces with dots. -/
def clean_episode_title (value : String) : String :=
  let s1 := regexReplaceAll removePattern [] value
  let s2 := regexReplaceAll removeTagsPattern [] s1
  let s3 := String.mk (transliterate s2.toList)
  let s4 := regexReplaceAll collapsePattern [' '] s3
  String.mk (spacesToDots (trimChars s4.toList))

/-- `FilterRules` from `file_intent.rs`. -/
structure FilterRules where
  blacklist_extensions : List String
  whitelist_folders : List String
  whitelist_filenames : List String
  whitelist_tags : List String

/-- `FileIntent` from `file_intent.rs`. -/
structure FileIntent where
  action : Action
  dest : String
  descriptor : Option EpisodeKey

/-- `str::split` on a separator character (structural, so that concrete
paths evaluate inside the kernel). -/
def splitOnChar (sep : Char) : List Char → List (List Char)
  | [] => [[]]
  | c :: rest =>
    let r := splitOnChar sep rest
    if c = sep then [] :: r
    else (c :: r.headD []) :: r.tail

/-- The components of a stored relative path.  Paths handled by the
classifier are forward-slash relative paths produced by the scanner
(§3/§9: stored paths always use `/`); `Path::iter`-style normalization
drops empty and `.` components. -/
def pathComponents (s : String) : List String :=
  ((splitOnChar '/' s.toList).map String.mk).filter
    (fun comp => comp ≠ "" ∧ comp ≠ ".")

/-- `Path::file_name`: the last component, unless it is `..`. -/
def pathFileName (s : String) : Option String :=
  match (pathComponents s).getLast? with
  | none => none
  | some l => if l = ".." then none else some l

/-- `Path::extension`: the part of the file name after its last dot, when
the name has a dot and a non-empty stem. -/
def pathExtension (s : String) : Option String :=
  match pathFileName s with
  | none => none
  | some n =>
    let cs := n.toList
    let revAfter := cs.reverse.takeWhile (fun c => c ≠ '.')
    if revAfter.length = cs.length then none
    else if cs.length - revAfter.length - 1 = 0 then none
    else some (String.mk revAfter.reverse)

/-- `format!("{:02}", n)`. -/
def pad2 (n : ℕ) : String := if n < 10 then "0" ++ toString n else toString n

/-- `get_file_intent` (file_intent.rs lines 31-128): the ordered decision
rules — missing extension/name → `Delete`; blacklisted extension →
`Delete`; whitelisted folder component or file name → `Whitelist`; parser
failure → `Ignore`; otherwise build the proposed path and return
`Complete` (same path) or `Rename`.  The episode lookup
`&episodes[*index]` would panic on an out-of-range cached index; that
(unreachable for caches built by `AppFolderCache::new`) case is modelled
as a missing episode name. -/
def get_file_intent (path_str : String) (rules : FilterRules) (series : Series)
    (episodes : List Episode) (episode_cache : EpisodeKey → Option ℕ) : FileIntent :=
  match pathExtension path_str with
  | none => { action := Action.delete, dest := "", descriptor := none }
  | some extension =>
    match pathFileName path_str with
    | none => { action := Action.delete, dest := "", descriptor := none }
    | some filename =>
      if rules.blacklist_extensions.any (fun x => decide (x = extension)) then
        { action := Action.delete, dest := "", descriptor := none }
      else if (pathComponents path_str).any
          (fun comp => rules.whitelist_folders.any (fun x => decide (x = comp))) then
        { action := Action.whitelist, dest := "", descriptor := none }
      else if rules.whitelist_filenames.any (fun x => decide (x = filename)) then
        { action := Action.whitelist, dest := "", descriptor := none }
      else
        match get_descriptor filename with
        | none => { action := Action.ignore, dest := "", descriptor := none }
        | some descriptor =>
          let episode_key : EpisodeKey := ⟨descriptor.season, descriptor.episode⟩
          let new_episode_title :=
            match episode_cache episode_key with
            | none => ""
            | some index =>
              match episodes.get? index with
              | none => ""
              | some episode =>
                match episode.name with
                | none => ""
                | some name => "-" ++ clean_episode_title name
          let tags_string :=
            String.join ((descriptor.tags.filter
              (fun tag => rules.whitelist_tags.any (fun x => decide (x = tag)))).map
                (fun tag => ".[" ++ tag ++ "]"))
          let new_filename :=
            clean_series_name series.name ++ "-S" ++ pad2 descriptor.season ++
              "E" ++ pad2 descriptor.episode ++ new_episode_title ++ tags_string ++
              "." ++ extension
          let new_folder := "Season " ++ pad2 descriptor.season
          let new_path_str := new_folder ++ "/" ++ new_filename
          if pathComponents new_path_str = pathComponents path_str then
            { action := Action.complete, dest := "", descriptor := some episode_key }
          else
            { action := Action.rename, dest := new_path_str,
              descriptor := some episode_key }

/-- The shape property of C10: empty `dest` off the rename path, and a
descriptor exactly on the rename/complete paths. -/
def IntentShape (r : FileIntent) : Prop :=
  (r.action ≠ Action.rename → r.dest = "") ∧
    (r.descriptor.isSome ↔ (r.action = Action.rename ∨ r.action = Action.complete))

/-- The rules of the C10 counterexample: `.nfo` blacklisted. -/
def c10rules : FilterRules := ⟨["nfo"], [], [], []⟩

lemma get?_set_self {α : Type _} {l : List α} {i : ℕ} {f : α} (g : α)
    (h : l.get? i = some f) : (l.set i g).get? i = some g := by
  have hlt : i < l.length := by
    rcases List.get?_eq_some.mp h with ⟨hlt, _⟩
    exact hlt
  simp [List.get?_eq_getElem?, List.getElem?_set, hlt]

lemma get?_set_other {α : Type _} {l : List α} {i j : ℕ} (g : α) (hne : j ≠ i) :
    (l.set i g).get? j = l.get? j := by
  simp [List.get?_eq_getElem?, List.getElem?_set, (Ne.symm hne : i ≠ j)]

lemma set_of_get? {α : Type _} {l : List α} {i : ℕ} {f : α} (h : l.get? i = some f) :
    l.set i f = l := by
  apply List.ext_get?
  intro n
  by_cases hn : n = i
  · subst hn; rw [get?_set_self f h, h]
  · rw [get?_set_other f hn]

lemma countP_set_eq {α : Type _} (p : α → Bool) (l : List α) (i : ℕ) {f : α} (g : α)
    (h : l.get? i = some f) :
    (l.set i g).countP p =
      l.countP p - (if p f then 1 else 0) + (if p g then 1 else 0) := by
  rcases List.get?_eq_some.mp h with ⟨hlt, hgf⟩
  have : l[i] = f := by simpa [List.get_eq_getElem] using hgf
  rw [List.countP_set p l i g hlt, this]

lemma countP_pos_of_get? {α : Type _} {p : α → Bool} {l : List α} {i : ℕ} {f : α}
    (h : l.get? i = some f) (hp : p f = true) : 0 < l.countP p := by
  rw [List.countP_pos_iff]
  exact ⟨f, List.get?_mem h, hp⟩

lemma countP_set_same {α : Type _} {p : α → Bool} {l : List α} {i : ℕ} {f : α} (g : α)
    (h : l.get? i = some f) (hpg : p g = p f) : (l.set i g).countP p = l.countP p := by
  rw [countP_set_eq p l i g h, hpg]
  cases hpf : p f
  · simp [hpf]
  · have hpos := countP_pos_of_get? h hpf
    simp [hpf]
    omega

lemma exPW_set_self {l : List AppFile} {i : ℕ} {f : AppFile} (g : AppFile) (d : String)
    (h : l.get? i = some f) :
    (∃ f', (l.set i g).get? i = some f' ∧ PWPred f' d) ↔ PWPred g d := by
  rw [get?_set_self g h]
  constructor
  · rintro ⟨f', hf', hp⟩
    cases hf'
    exact hp
  · intro hp
    exact ⟨g, rfl, hp⟩

lemma exPW_set_other {l : List AppFile} {i j : ℕ} (g : AppFile) (d : String)
    (hne : j ≠ i) :
    (∃ f', (l.set i g).get? j = some f' ∧ PWPred f' d) ↔
      (∃ f', l.get? j = some f' ∧ PWPred f' d) := by
  rw [get?_set_other g hne]

lemma pwPred_of_mem {file_list : List AppFile} {t : FileTracker}
    (h2 : InvPendingWrites file_list t) {d : String} {i : ℕ} {f : AppFile}
    (hget : file_list.get? i = some f) (hmem : i ∈ t.pending_writes d) :
    PWPred f d := by
  rcases (h2 d i).mp hmem with ⟨f', hf', hp⟩
  rw [hget] at hf'
  cases hf'
  exact hp

lemma not_mem_pw {file_list : List AppFile} {t : FileTracker}
    (h2 : InvPendingWrites file_list t) {d : String} {i : ℕ} {f : AppFile}
    (hget : file_list.get? i = some f) (hnp : ¬ PWPred f d) :
    i ∉ t.pending_writes d := by
  intro hmem
  exact hnp (pwPred_of_mem h2 hget hmem)

lemma invAC_set_preserve {l : List AppFile} {t : FileTracker} {i : ℕ} {file : AppFile}
    (g : AppFile) (hget : l.get? i = some file) (h1 : InvActionCount l t)
    (hact : g.action = file.action) : InvActionCount (l.set i g) t := by
  intro a
  rw [countP_set_same g hget (by simp [hact]), h1 a]

lemma invAC_setAction_fun {l : List AppFile} {i : ℕ} {file : AppFile} (newAction : Action)
    (hget : l.get? i = some file) (cnt : Action → ℕ)
    (h1 : ∀ a, cnt a = l.countP fun f => decide (f.action = a))
    (hne : file.action ≠ newAction) (a : Action) :
    (if a = newAction then (if a = file.action then cnt a - 1 else cnt a) + 1
      else if a = file.action then cnt a - 1 else cnt a) =
      (l.set i { file with action := newAction }).countP
        (fun f => decide (f.action = a)) := by
  rw [countP_set_eq _ _ _ _ hget]
  simp only [decide_eq_true_eq]
  by_cases h1a : a = newAction <;> by_cases h2a : a = file.action
  · exact absurd (h2a.symm.trans h1a) hne
  · rw [if_pos h1a, if_neg h2a, h1 a,
      if_neg (fun h : file.action = a => h2a h.symm), if_pos h1a.symm]
    omega
  · rw [if_neg h1a, if_pos h2a, h1 a, if_pos h2a.symm,
      if_neg (fun h : newAction = a => h1a h.symm)]
    omega
  · rw [if_neg h1a, if_neg h2a, h1 a,
      if_neg (fun h : file.action = a => h2a h.symm),
      if_neg (fun h : newAction = a => h1a h.symm)]
    omega

lemma invPW_set_no_pw {l : List AppFile} {t : FileTracker} {i : ℕ} {file : AppFile}
    (g : AppFile) (hget : l.get? i = some file) (h2 : InvPendingWrites l t)
    (hfile : ∀ d, ¬ PWPred file d) (hg : ∀ d, ¬ PWPred g d) :
    InvPendingWrites (l.set i g) t := by
  intro d j
  by_cases hj : j = i
  · subst hj
    rw [exPW_set_self g d hget]
    constructor
    · intro hmem
      exact absurd (pwPred_of_mem h2 hget hmem) (hfile d)
    · intro hp
      exact absurd hp (hg d)
  · rw [exPW_set_other g d hj]
    exact h2 d j

lemma invPW_set_remove {l : List AppFile} {t : FileTracker} {i : ℕ} {file : AppFile}
    (g : AppFile) (hget : l.get? i = some file) (h2 : InvPendingWrites l t)
    (hg : ∀ d, ¬ PWPred g d) :
    InvPendingWrites (l.set i g) (t.remove_pending_write file.dest i) := by
  intro d j
  simp only [FileTracker.remove_pending_write]
  by_cases hd : d = file.dest
  · subst hd
    rw [if_pos rfl]
    by_cases hj : j = i
    · subst hj
      rw [exPW_set_self g _ hget]
      simp only [Finset.mem_erase, ne_eq, not_true_eq_false, false_and, false_iff]
      exact hg _
    · rw [exPW_set_other g _ hj]
      rw [show (j ∈ (t.pending_writes file.dest).erase i) = (j ∈ t.pending_writes file.dest) from
        by simp [Finset.mem_erase, hj]]
      exact h2 _ j
  · rw [if_neg hd]
    by_cases hj : j = i
    · subst hj
      rw [exPW_set_self g _ hget]
      constructor
      · intro hmem
        have hp := pwPred_of_mem h2 hget hmem
        exact absurd hp.2.2 (fun h => hd h.symm)
      · intro hp
        exact absurd hp (hg d)
    · rw [exPW_set_other g _ hj]
      exact h2 d j

lemma invPW_set_add {l : List AppFile} {t : FileTracker} {i : ℕ} {file : AppFile}
    (g : AppFile) (hget : l.get? i = some file) (h2 : InvPendingWrites l t)
    (hgd : PWPred g file.dest) (hgOnly : ∀ d, PWPred g d → d = file.dest)
    (hfile : ∀ d, ¬ PWPred file d) :
    InvPendingWrites (l.set i g) (t.add_pending_write file.dest i) := by
  intro d j
  simp only [FileTracker.add_pending_write]
  by_cases hd : d = file.dest
  · subst hd
    rw [if_pos rfl]
    by_cases hj : j = i
    · subst hj
      rw [exPW_set_self g _ hget]
      simp only [Finset.mem_insert, true_or, true_iff]
      exact hgd
    · rw [exPW_set_other g _ hj]
      rw [show (j ∈ insert i (t.pending_writes file.dest)) =
          (j ∈ t.pending_writes file.dest) from by simp [Finset.mem_insert, hj]]
      exact h2 _ j
  · rw [if_neg hd]
    by_cases hj : j = i
    · subst hj
      rw [exPW_set_self g _ hget]
      constructor
      · intro hmem
        exact absurd (pwPred_of_mem h2 hget hmem) (hfile d)
      · intro hp
        exact absurd (hgOnly d hp) hd
    · rw [exPW_set_other g _ hj]
      exact h2 d j

lemma invPW_set_move {l : List AppFile} {t : FileTracker} {i : ℕ} {file : AppFile}
    (newDest : String) (hget : l.get? i = some file) (h2 : InvPendingWrites l t)
    (hen : file.is_enabled = true) (hact : file.action = Action.rename)
    (hne : file.dest ≠ newDest) :
    InvPendingWrites (l.set i { file with dest := newDest })
      ((t.remove_pending_write file.dest i).add_pending_write newDest i) := by
  intro d j
  simp only [FileTracker.add_pending_write, FileTracker.remove_pending_write]
  by_cases hdn : d = newDest
  · rw [hdn, if_pos rfl, if_neg (fun h : newDest = file.dest => hne h.symm)]
    by_cases hj : j = i
    · subst hj
      rw [exPW_set_self _ _ hget]
      simp only [Finset.mem_insert, true_or, true_iff]
      exact ⟨hen, hact, rfl⟩
    · rw [exPW_set_other _ _ hj]
      rw [show (j ∈ insert i (t.pending_writes newDest)) =
          (j ∈ t.pending_writes newDest) from by simp [Finset.mem_insert, hj]]
      exact h2 _ j
  · rw [if_neg hdn]
    by_cases hdf : d = file.dest
    · subst hdf
      rw [if_pos rfl]
      by_cases hj : j = i
      · subst hj
        rw [exPW_set_self _ _ hget]
        simp only [Finset.mem_erase, ne_eq, not_true_eq_false, false_and, false_iff]
        intro hp
        exact hdn hp.2.2.symm
      · rw [exPW_set_other _ _ hj]
        rw [show (j ∈ (t.pending_writes file.dest).erase i) =
            (j ∈ t.pending_writes file.dest) from by simp [Finset.mem_erase, hj]]
        exact h2 _ j
    · rw [if_neg hdf]
      by_cases hj : j = i
      · subst hj
        rw [exPW_set_self _ _ hget]
        constructor
        · intro hmem
          exact absurd (pwPred_of_mem h2 hget hmem).2.2 (fun h => hdf h.symm)
        · intro hp
          exact absurd hp.2.2 (fun h => hdn h.symm)
      · rw [exPW_set_other _ _ hj]
        exact h2 d j

/-- Replaying one change-queue entry preserves invariants I1 and I3. -/
theorem applyFileChange_preserves (s : FlushState)
    (h1 : InvActionCount s.file_list s.file_tracker)
    (h2 : InvPendingWrites s.file_list s.file_tracker) (c : AppFileChange) :
    InvActionCount (applyFileChange s c).file_list (applyFileChange s c).file_tracker ∧
    InvPendingWrites (applyFileChange s c).file_list (applyFileChange s c).file_tracker := by
  cases c with
  | setAction index newAction =>
    cases hget : s.file_list.get? index with
    | none =>
      simp only [applyFileChange, hget]
      exact ⟨h1, h2⟩
    | some file =>
      simp only [applyFileChange, hget]
      by_cases heq : file.action = newAction
      · rw [if_pos heq]
        have hfl : s.file_list.set index { file with action := newAction } = s.file_list := by
          rw [← heq]
          exact set_of_get? hget
        dsimp only
        rw [hfl]
        exact ⟨h1, h2⟩
      · rw [if_neg heq]
        split_ifs with hEn hNR hOld
        · have hEn' : file.is_enabled = false := by simpa using hEn
          refine ⟨fun a => invAC_setAction_fun newAction hget _ h1 heq a, ?_⟩
          refine invPW_set_no_pw _ hget h2 ?_ ?_
          · intro d hp
            rw [hp.1] at hEn'
            cases hEn'
          · intro d hp
            have : file.is_enabled = true := hp.1
            rw [this] at hEn'
            cases hEn'
        · refine ⟨fun a => invAC_setAction_fun newAction hget _ h1 heq a, ?_⟩
          refine invPW_set_no_pw _ hget h2 ?_ ?_
          · intro d hp
            exact hNR.1 hp.2.1
          · intro d hp
            exact hNR.2 hp.2.1
        · refine ⟨fun a => invAC_setAction_fun newAction hget _ h1 heq a, ?_⟩
          refine invPW_set_remove _ hget h2 ?_
          intro d hp
          exact heq (hOld.trans hp.2.1.symm)
        · have hEn' : file.is_enabled = true := by
            by_contra hcon
            exact hEn (by simpa using (Bool.not_eq_true _).mp hcon)
          have hnewr : newAction = Action.rename := by
            by_contra hcon
            exact hNR ⟨hOld, hcon⟩
          refine ⟨fun a => invAC_setAction_fun newAction hget _ h1 heq a, ?_⟩
          refine invPW_set_add _ hget h2 ⟨hEn', hnewr, rfl⟩ ?_ ?_
          · intro d hp
            exact hp.2.2.symm
          · intro d hp
            exact hOld hp.2.1
  | isEnabled index newIsEnabled =>
    cases hget : s.file_list.get? index with
    | none =>
      simp only [applyFileChange, hget]
      exact ⟨h1, h2⟩
    | some file =>
      simp only [applyFileChange, hget]
      by_cases heq : file.is_enabled = newIsEnabled
      · rw [if_pos heq]
        have hfl : s.file_list.set index { file with is_enabled := newIsEnabled }
            = s.file_list := by
          rw [← heq]
          exact set_of_get? hget
        dsimp only
        rw [hfl]
        exact ⟨h1, h2⟩
      · rw [if_neg heq]
        split_ifs with hNR hTrue
        · refine ⟨invAC_set_preserve _ hget h1 rfl, ?_⟩
          refine invPW_set_no_pw _ hget h2 ?_ ?_
          · intro d hp
            exact hNR hp.2.1
          · intro d hp
            exact hNR hp.2.1
        · have hEn' : file.is_enabled = false := by
            cases hb : file.is_enabled
            · rfl
            · rw [hb, hTrue] at heq
              exact absurd rfl heq
          have hact : file.action = Action.rename := not_not.mp (by simpa using hNR)
          refine ⟨invAC_set_preserve _ hget h1 rfl, ?_⟩
          refine invPW_set_add _ hget h2 ⟨by simp [hTrue], hact, rfl⟩ ?_ ?_
          · intro d hp
            exact hp.2.2.symm
          · intro d hp
            rw [hp.1] at hEn'
            cases hEn'
        · have hFalse : newIsEnabled = false := by
            cases hb : newIsEnabled
            · rfl
            · exact absurd hb hTrue
          have hact : file.action = Action.rename := not_not.mp (by simpa using hNR)
          refine ⟨invAC_set_preserve _ hget h1 rfl, ?_⟩
          refine invPW_set_remove _ hget h2 ?_
          intro d hp
          have : newIsEnabled = true := hp.1
          rw [hFalse] at this
          cases this
  | destination index newDest =>
    cases hget : s.file_list.get? index with
    | none =>
      simp only [applyFileChange, hget]
      exact ⟨h1, h2⟩
    | some file =>
      simp only [applyFileChange, hget]
      by_cases heq : file.dest = newDest
      · rw [if_pos heq]
        exact ⟨h1, h2⟩
      · rw [if_neg heq]
        split_ifs with hOr
        · refine ⟨invAC_set_preserve _ hget h1 rfl, ?_⟩
          refine invPW_set_no_pw _ hget h2 ?_ ?_
          · intro d hp
            rcases hOr with h | h
            · rw [hp.1] at h
              exact absurd h (by decide)
            · exact h hp.2.1
          · intro d hp
            rcases hOr with h | h
            · have : file.is_enabled = true := hp.1
              rw [this] at h
              exact absurd h (by decide)
            · exact h hp.2.1
        · have hparts := not_or.mp hOr
          have hen : file.is_enabled = true := by
            rcases hb : file.is_enabled
            · exact absurd (by simp [hb]) hparts.1
            · rfl
          have hact : file.action = Action.rename := not_not.mp hparts.2
          refine ⟨invAC_set_preserve _ hget h1 rfl, ?_⟩
          exact invPW_set_move newDest hget h2 hen hact heq

/-- Replaying a whole queue preserves invariants I1 and I3. -/
lemma flush_preserves_inv (queue : List AppFileChange) (st : FlushState)
    (h1 : InvActionCount st.file_list st.file_tracker)
    (h2 : InvPendingWrites st.file_list st.file_tracker) :
    InvActionCount (queue.foldl applyFileChange st).file_list
      (queue.foldl applyFileChange st).file_tracker ∧
    InvPendingWrites (queue.foldl applyFileChange st).file_list
      (queue.foldl applyFileChange st).file_tracker := by
  induction queue generalizing st with
  | nil => exact ⟨h1, h2⟩
  | cons c rest ih =>
    rw [List.foldl_cons]
    obtain ⟨h1a, h2a⟩ := applyFileChange_preserves st h1 h2 c
    exact ih _ h1a h2a

lemma seed_fold_pw (ps : List (ℕ × AppFile)) (t0 : FileTracker) :
    (ps.foldl seedTrackerStep t0).pending_writes = t0.pending_writes := by
  induction ps generalizing t0 with
  | nil => rfl
  | cons p ps ih =>
    rw [List.foldl_cons, ih]
    rfl

lemma seed_fold_ac (ps : List (ℕ × AppFile)) (t0 : FileTracker) (a : Action) :
    (ps.foldl seedTrackerStep t0).action_count a =
      t0.action_count a + (ps.map Prod.snd).countP (fun f => decide (f.action = a)) := by
  induction ps generalizing t0 with
  | nil => simp
  | cons p ps ih =>
    rw [List.foldl_cons, ih]
    simp only [List.map_cons, List.countP_cons]
    show (if a = p.2.action then t0.action_count a + 1 else t0.action_count a) + _ = _
    by_cases h : a = p.2.action
    · have hd : decide (p.2.action = a) = true := by simp [h]
      rw [if_pos h, hd, if_pos rfl]
      omega
    · have hd : decide (p.2.action = a) = false := by
        simp
        exact fun hh => h hh.symm
      rw [if_neg h, hd, if_neg Bool.false_ne_true]
      omega

lemma rebuild_ac (l : List AppFile) (a : Action) :
    (rebuildFileTracker l).action_count a = l.countP (fun f => decide (f.action = a)) := by
  unfold rebuildFileTracker
  rw [seed_fold_ac, List.enum_map_snd]
  simp [FileTracker.new]

lemma rebuild_pw (l : List AppFile) :
    (rebuildFileTracker l).pending_writes = fun _ => (∅ : Finset ℕ) := by
  unfold rebuildFileTracker
  rw [seed_fold_pw]
  rfl

/-- Freshly classified records are all disabled, so the reseeded tracker
satisfies I1 and I3. -/
lemma rebuild_inv (l : List AppFile) (hdis : ∀ f ∈ l, f.is_enabled = false) :
    InvActionCount l (rebuildFileTracker l) ∧ InvPendingWrites l (rebuildFileTracker l) := by
  constructor
  · intro a
    exact rebuild_ac l a
  · intro d i
    rw [rebuild_pw l]
    simp only [Finset.not_mem_empty, false_iff]
    rintro ⟨f, hget, hp⟩
    have hmem := hdis f (List.get?_mem hget)
    rw [hp.1] at hmem
    cases hmem

/-- After a modelled rescan (`update_file_intents_applied`) the invariants
I1 and I3 hold. -/
lemma update_file_intents_inv (new_file_list : List AppFile)
    (hdis : ∀ f ∈ new_file_list, f.is_enabled = false) :
    InvActionCount (update_file_intents_applied new_file_list).1.file_list
      (update_file_intents_applied new_file_list).1.file_tracker ∧
    InvPendingWrites (update_file_intents_applied new_file_list).1.file_list
      (update_file_intents_applied new_file_list).1.file_tracker := by
  have hdis' : ∀ f ∈ List.insertionSort (fun a b => a.src ≤ b.src) new_file_list,
      f.is_enabled = false :=
    fun f hf => hdis f ((List.perm_insertionSort _ _).subset hf)
  obtain ⟨ha, hp⟩ := rebuild_inv _ hdis'
  exact flush_preserves_inv _ ⟨_, _, 0⟩ ha hp

/-- C1: for every record vector produced by a rescan rebuild (freshly
classified records are disabled) and every queue of in-range entries, after
exactly one flush the tracker satisfies I1 (the action histogram counts the
records of each action) and I3 (`i ∈ pending_writes[d]` iff record `i` is an
enabled rename with destination `d`). -/
theorem rescan_then_flush_invariants (new_file_list : List AppFile)
    (hdis : ∀ f ∈ new_file_list, f.is_enabled = false)
    (queue : List AppFileChange)
    (_hq : ∀ c ∈ queue, c.index < new_file_list.length) :
    InvActionCount
      (flush_file_changes_acquired (update_file_intents_applied new_file_list).1.file_list
        (update_file_intents_applied new_file_list).1.file_tracker queue).file_list
      (flush_file_changes_acquired (update_file_intents_applied new_file_list).1.file_list
        (update_file_intents_applied new_file_list).1.file_tracker queue).file_tracker ∧
    InvPendingWrites
      (flush_file_changes_acquired (update_file_intents_applied new_file_list).1.file_list
        (update_file_intents_applied new_file_list).1.file_tracker queue).file_list
      (flush_file_changes_acquired (update_file_intents_applied new_file_list).1.file_list
        (update_file_intents_applied new_file_list).1.file_tracker queue).file_tracker := by
  obtain ⟨ha, hp⟩ := update_file_intents_inv new_file_list hdis
  exact flush_preserves_inv queue ⟨_, _, 0⟩ ha hp

/-- Witness for C1 at a concrete one-record folder and one queued entry. -/
theorem rescan_then_flush_invariants_witness :
    InvActionCount
      (flush_file_changes_acquired
        (update_file_intents_applied
          [⟨"a.mkv", none, Action.rename, "Season 01/A.mkv", false⟩]).1.file_list
        (update_file_intents_applied
          [⟨"a.mkv", none, Action.rename, "Season 01/A.mkv", false⟩]).1.file_tracker
        [AppFileChange.destination 0 "x"]).file_list
      (flush_file_changes_acquired
        (update_file_intents_applied
          [⟨"a.mkv", none, Action.rename, "Season 01/A.mkv", false⟩]).1.file_list
        (update_file_intents_applied
          [⟨"a.mkv", none, Action.rename, "Season 01/A.mkv", false⟩]).1.file_tracker
        [AppFileChange.destination 0 "x"]).file_tracker ∧
    InvPendingWrites
      (flush_file_changes_acquired
        (update_file_intents_applied
          [⟨"a.mkv", none, Action.rename, "Season 01/A.mkv", false⟩]).1.file_list
        (update_file_intents_applied
          [⟨"a.mkv", none, Action.rename, "Season 01/A.mkv", false⟩]).1.file_tracker
        [AppFileChange.destination 0 "x"]).file_list
      (flush_file_changes_acquired
        (update_file_intents_applied
          [⟨"a.mkv", none, Action.rename, "Season 01/A.mkv", false⟩]).1.file_list
        (update_file_intents_applied
          [⟨"a.mkv", none, Action.rename, "Season 01/A.mkv", false⟩]).1.file_tracker
        [AppFileChange.destination 0 "x"]).file_tracker :=
  rescan_then_flush_invariants
    [⟨"a.mkv", none, Action.rename, "Season 01/A.mkv", false⟩]
    (by decide) [AppFileChange.destination 0 "x"] (by decide)

lemma applyFileChange_length (s : FlushState) (c : AppFileChange) :
    ((applyFileChange s c).file_list).length = s.file_list.length := by
  cases c with
  | setAction index newAction =>
    cases hget : s.file_list.get? index with
    | none => simp only [applyFileChange, hget]
    | some file =>
      simp only [applyFileChange, hget]
      split_ifs <;> simp [List.length_set]
  | isEnabled index newIsEnabled =>
    cases hget : s.file_list.get? index with
    | none => simp only [applyFileChange, hget]
    | some file =>
      simp only [applyFileChange, hget]
      split_ifs <;> simp [List.length_set]
  | destination index newDest =>
    cases hget : s.file_list.get? index with
    | none => simp only [applyFileChange, hget]
    | some file =>
      simp only [applyFileChange, hget]
      split_ifs <;> simp [List.length_set]

lemma applyFileChange_oob (s : FlushState) (c : AppFileChange)
    (h : s.file_list.length ≤ c.index) : applyFileChange s c = s := by
  cases c with
  | setAction index newAction =>
    have hnone : s.file_list.get? index = none := List.get?_eq_none.mpr h
    simp only [applyFileChange, hnone]
  | isEnabled index newIsEnabled =>
    have hnone : s.file_list.get? index = none := List.get?_eq_none.mpr h
    simp only [applyFileChange, hnone]
  | destination index newDest =>
    have hnone : s.file_list.get? index = none := List.get?_eq_none.mpr h
    simp only [applyFileChange, hnone]

lemma foldl_filter_inrange (L : ℕ) (queue : List AppFileChange) (st : FlushState)
    (hlen : st.file_list.length = L) :
    queue.foldl applyFileChange st =
      (queue.filter (fun c => decide (c.index < L))).foldl applyFileChange st := by
  induction queue generalizing st with
  | nil => rfl
  | cons c rest ih =>
    by_cases hc : c.index < L
    · rw [List.foldl_cons, List.filter_cons_of_pos (by simpa using hc), List.foldl_cons]
      exact ih _ (by rw [applyFileChange_length, hlen])
    · rw [List.foldl_cons, List.filter_cons_of_neg (by simpa using hc),
        applyFileChange_oob st c (by omega)]
      exact ih st hlen

/-- C9: `flush` is total even with out-of-range entries queued: replaying
the queue equals replaying only its in-range entries (in order), so each
out-of-range entry has no effect on the records, the tracker or the
returned change count; and the queue is cleared. -/
theorem flush_skips_out_of_range (s : FolderState) :
    flush_file_changes_acquired s.file_list s.file_tracker s.change_queue =
      flush_file_changes_acquired s.file_list s.file_tracker
        (s.change_queue.filter (fun c => decide (c.index < s.file_list.length))) ∧
    (AppFolder.flush_file_changes s).1.change_queue = [] := by
  refine ⟨?_, rfl⟩
  exact foldl_filter_inrange s.file_list.length s.change_queue _ rfl

lemma check_conflicts_iff (t : FileTracker) (dest : String) :
    t.check_if_write_conflicts dest = true ↔
      (if (t.existing_sources dest).isSome then 1 else 0) +
        (t.pending_writes dest).card > 1 := by
  unfold FileTracker.check_if_write_conflicts
  by_cases hs : (t.existing_sources dest).isSome
  · simp [hs]
  · simp [hs]

/-- C2: given tracker invariants I2 and I3, `get_is_conflict(i)` is true iff
record `i` is an enabled rename and either another enabled rename `j ≠ i`
targets the same destination, or some record (possibly `i` itself) has `src`
equal to record `i`'s destination. -/
theorem get_is_conflict_spec (file_list : List AppFile) (t : FileTracker)
    (hI2 : InvExistingSources file_list t) (hI3 : InvPendingWrites file_list t)
    (i : ℕ) (f : AppFile) (hget : file_list.get? i = some f) :
    AppFileContext.get_is_conflict file_list t i = true ↔
      (f.is_enabled = true ∧ f.action = Action.rename ∧
        ((∃ j g, j ≠ i ∧ file_list.get? j = some g ∧ g.is_enabled = true ∧
            g.action = Action.rename ∧ g.dest = f.dest) ∨
          (∃ k g, file_list.get? k = some g ∧ g.src = f.dest))) := by
  simp only [AppFileContext.get_is_conflict, hget]
  by_cases hcond : (!f.is_enabled : Bool) = true ∨ ¬ f.action = Action.rename
  · rw [if_pos hcond]
    constructor
    · intro hfalse
      exact (Bool.false_ne_true hfalse).elim
    · rintro ⟨h1', h2', -⟩
      rcases hcond with h | h
      · rw [h1'] at h
        exact absurd h (by decide)
      · exact absurd h2' h
  · rw [if_neg hcond]
    have hparts := not_or.mp hcond
    have hen : f.is_enabled = true := by
      cases hb : f.is_enabled
      · exact absurd (by simp [hb]) hparts.1
      · rfl
    have hact : f.action = Action.rename := not_not.mp hparts.2
    have hmem : i ∈ t.pending_writes f.dest := (hI3 f.dest i).mpr ⟨f, hget, hen, hact, rfl⟩
    rw [check_conflicts_iff]
    cases hsrc : t.existing_sources f.dest with
    | some k =>
      rcases (hI2 f.dest k).mp hsrc with ⟨g, hgk, hgsrc⟩
      have hcard : 0 < (t.pending_writes f.dest).card := Finset.card_pos.mpr ⟨i, hmem⟩
      rw [show (if (some k : Option ℕ).isSome then 1 else 0) = 1 from rfl]
      constructor
      · intro _
        exact ⟨hen, hact, Or.inr ⟨k, g, hgk, hgsrc⟩⟩
      · intro _
        omega
    | none =>
      rw [show (if (none : Option ℕ).isSome then 1 else 0) = 0 from rfl]
      constructor
      · intro hgt
        have h2card : 1 < (t.pending_writes f.dest).card := by omega
        rcases Finset.one_lt_card_iff.mp h2card with ⟨a, b, ha, hb, hab⟩
        by_cases hai : a = i
        · subst hai
          rcases (hI3 f.dest b).mp hb with ⟨g, hgb, hgp⟩
          exact ⟨hen, hact, Or.inl ⟨b, g, Ne.symm hab, hgb, hgp.1, hgp.2.1, hgp.2.2⟩⟩
        · rcases (hI3 f.dest a).mp ha with ⟨g, hga, hgp⟩
          exact ⟨hen, hact, Or.inl ⟨a, g, hai, hga, hgp.1, hgp.2.1, hgp.2.2⟩⟩
      · rintro ⟨-, -, hcase⟩
        rcases hcase with ⟨j, g, hji, hgj, hgen, hgact, hgdest⟩ | ⟨k, g, hgk, hgsrc⟩
        · have hjm : j ∈ t.pending_writes f.dest :=
            (hI3 f.dest j).mpr ⟨g, hgj, hgen, hgact, hgdest⟩
          have : 1 < (t.pending_writes f.dest).card :=
            Finset.one_lt_card_iff.mpr ⟨j, i, hjm, hmem, hji⟩
          omega
        · have hk : t.existing_sources f.dest = some k := (hI2 f.dest k).mpr ⟨g, hgk, hgsrc⟩
          rw [hsrc] at hk
          cases hk

lemma get?_two {α : Type _} (x y : α) (j : ℕ) (g : α) (h : [x, y].get? j = some g) :
    (j = 0 ∧ g = x) ∨ (j = 1 ∧ g = y) := by
  rcases j with _ | _ | n
  · exact Or.inl ⟨rfl, (Option.some.inj h).symm⟩
  · exact Or.inr ⟨rfl, (Option.some.inj h).symm⟩
  · simp [List.get?] at h

lemma c2_hI2 : InvExistingSources c2files c2tracker := by
  intro src j
  simp only [c2tracker, c2files]
  by_cases h1 : src = "a"
  · rw [if_pos h1]
    constructor
    · intro h
      obtain rfl : j = 0 := (Option.some.inj h).symm
      exact ⟨⟨"a", none, Action.rename, "b", true⟩, rfl, h1.symm⟩
    · rintro ⟨g, hg, hsrc⟩
      rcases get?_two _ _ j g hg with ⟨rfl, rfl⟩ | ⟨rfl, rfl⟩
      · rfl
      · rw [h1] at hsrc
        exact absurd hsrc (by decide)
  · rw [if_neg h1]
    by_cases h2 : src = "b"
    · rw [if_pos h2]
      constructor
      · intro h
        obtain rfl : j = 1 := (Option.some.inj h).symm
        exact ⟨⟨"b", none, Action.ignore, "", false⟩, rfl, h2.symm⟩
      · rintro ⟨g, hg, hsrc⟩
        rcases get?_two _ _ j g hg with ⟨rfl, rfl⟩ | ⟨rfl, rfl⟩
        · rw [h2] at hsrc
          exact absurd hsrc (by decide)
        · rfl
    · rw [if_neg h2]
      constructor
      · intro h
        cases h
      · rintro ⟨g, hg, hsrc⟩
        rcases get?_two _ _ j g hg with ⟨rfl, rfl⟩ | ⟨rfl, rfl⟩
        · exact absurd hsrc.symm h1
        · exact absurd hsrc.symm h2

lemma c2_hI3 : InvPendingWrites c2files c2tracker := by
  intro d j
  constructor
  · intro hmem
    simp only [c2tracker] at hmem
    by_cases hd : d = "b"
    · rw [if_pos hd] at hmem
      obtain rfl : j = 0 := Finset.mem_singleton.mp hmem
      exact ⟨⟨"a", none, Action.rename, "b", true⟩, rfl, rfl, rfl, hd.symm⟩
    · rw [if_neg hd] at hmem
      exact absurd hmem (Finset.not_mem_empty j)
  · rintro ⟨g, hg, hp⟩
    rcases get?_two _ _ j g hg with ⟨rfl, rfl⟩ | ⟨rfl, rfl⟩
    · have hd : d = "b" := hp.2.2.symm
      simp [c2tracker, hd]
    · cases hp.2.1

/-- Witness for C2: record 0 of `c2files` conflicts because record 1's
source equals its destination. -/
theorem get_is_conflict_spec_witness :
    AppFileContext.get_is_conflict c2files c2tracker 0 = true :=
  (get_is_conflict_spec c2files c2tracker c2_hI2 c2_hI3 0
      ⟨"a", none, Action.rename, "b", true⟩ rfl).mpr
    ⟨rfl, rfl, Or.inr ⟨1, ⟨"b", none, Action.ignore, "", false⟩, rfl, rfl⟩⟩

lemma applyFileChange_file_list (s : FlushState) (c : AppFileChange) :
    (applyFileChange s c).file_list = applyChangeToFiles s.file_list c := by
  cases c with
  | setAction index newAction =>
    cases hget : s.file_list.get? index with
    | none => simp only [applyFileChange, applyChangeToFiles, hget]
    | some file =>
      simp only [applyFileChange, applyChangeToFiles, hget]
      split_ifs <;> rfl
  | isEnabled index newIsEnabled =>
    cases hget : s.file_list.get? index with
    | none => simp only [applyFileChange, applyChangeToFiles, hget]
    | some file =>
      simp only [applyFileChange, applyChangeToFiles, hget]
      split_ifs <;> rfl
  | destination index newDest =>
    cases hget : s.file_list.get? index with
    | none => simp only [applyFileChange, applyChangeToFiles, hget]
    | some file =>
      simp only [applyFileChange, applyChangeToFiles, hget]
      split_ifs with h
      · rw [← h]
        exact (set_of_get? hget).symm
      · rfl
      · rfl

lemma applyFileChange_total (s : FlushState) (c : AppFileChange) :
    (applyFileChange s c).total_changes =
      s.total_changes + (if changeCounted s.file_list c then 1 else 0) := by
  cases c with
  | setAction index newAction =>
    cases hget : s.file_list.get? index with
    | none =>
      have hcc : changeCounted s.file_list (.setAction index newAction) = false := by
        simp only [changeCounted, hget]
      rw [hcc]
      simp only [applyFileChange, hget, Bool.false_eq_true, if_false, Nat.add_zero]
    | some file =>
      simp only [applyFileChange, hget]
      by_cases heq : file.action = newAction
      · have hcc : changeCounted s.file_list (.setAction index newAction) = false := by
          simp only [changeCounted, hget]
          simp [heq]
        rw [if_pos heq, hcc]
        simp
      · rw [if_neg heq]
        by_cases hEn : (!file.is_enabled : Bool) = true
        · have hEn' : file.is_enabled = false := by simpa using hEn
          have hcc : changeCounted s.file_list (.setAction index newAction) = false := by
            simp only [changeCounted, hget]
            simp [hEn']
          rw [if_pos hEn, hcc]
          simp
        · rw [if_neg hEn]
          have hEn' : file.is_enabled = true := by
            cases hb : file.is_enabled
            · exact absurd (by simp [hb]) hEn
            · rfl
          by_cases hNR : file.action ≠ Action.rename ∧ newAction ≠ Action.rename
          · have hcc : changeCounted s.file_list (.setAction index newAction) = false := by
              simp only [changeCounted, hget]
              simp [hNR.1, hNR.2]
            rw [if_pos hNR, hcc]
            simp
          · have hOr : file.action = Action.rename ∨ newAction = Action.rename := by
              by_cases h : file.action = Action.rename
              · exact Or.inl h
              · refine Or.inr ?_
                by_contra hc
                exact hNR ⟨h, hc⟩
            have hcc : changeCounted s.file_list (.setAction index newAction) = true := by
              simp only [changeCounted, hget]
              rcases hOr with h | h
              · have h2 : ¬Action.rename = newAction := fun hh => heq (h.trans hh)
                simp [hEn', h, h2]
              · have h2 : ¬file.action = Action.rename := fun hh => heq (hh.trans h.symm)
                simp [hEn', h, h2]
            rw [if_neg hNR, hcc]
            by_cases hOld : file.action = Action.rename
            · rw [if_pos hOld]
              simp
            · rw [if_neg hOld]
              simp
  | isEnabled index newIsEnabled =>
    cases hget : s.file_list.get? index with
    | none =>
      have hcc : changeCounted s.file_list (.isEnabled index newIsEnabled) = false := by
        simp only [changeCounted, hget]
      rw [hcc]
      simp only [applyFileChange, hget, Bool.false_eq_true, if_false, Nat.add_zero]
    | some file =>
      simp only [applyFileChange, hget]
      by_cases heq : file.is_enabled = newIsEnabled
      · have hcc : changeCounted s.file_list (.isEnabled index newIsEnabled) = false := by
          simp only [changeCounted, hget]
          simp [heq]
        rw [if_pos heq, hcc]
        simp
      · rw [if_neg heq]
        by_cases hact : file.action ≠ Action.rename
        · have hcc : changeCounted s.file_list (.isEnabled index newIsEnabled) = false := by
            simp only [changeCounted, hget]
            simp [hact]
          rw [if_pos hact, hcc]
          simp
        · have hcc : changeCounted s.file_list (.isEnabled index newIsEnabled) = true := by
            simp only [changeCounted, hget]
            simp [heq, not_not.mp hact]
          rw [if_neg hact, hcc]
          by_cases hb : newIsEnabled = true
          · rw [if_pos hb]
            simp
          · rw [if_neg hb]
            simp
  | destination index newDest =>
    cases hget : s.file_list.get? index with
    | none =>
      have hcc : changeCounted s.file_list (.destination index newDest) = false := by
        simp only [changeCounted, hget]
      rw [hcc]
      simp only [applyFileChange, hget, Bool.false_eq_true, if_false, Nat.add_zero]
    | some file =>
      simp only [applyFileChange, hget]
      by_cases heq : file.dest = newDest
      · have hcc : changeCounted s.file_list (.destination index newDest) = false := by
          simp only [changeCounted, hget]
          simp [heq]
        rw [if_pos heq, hcc]
        simp
      · rw [if_neg heq]
        by_cases hOr : (!file.is_enabled : Bool) = true ∨ file.action ≠ Action.rename
        · have hcc : changeCounted s.file_list (.destination index newDest) = false := by
            simp only [changeCounted, hget]
            rcases hOr with h | h
            · simp [show file.is_enabled = false by simpa using h]
            · simp [h]
          rw [if_pos hOr, hcc]
          simp
        · have hparts := not_or.mp hOr
          have hEn' : file.is_enabled = true := by
            cases hb : file.is_enabled
            · exact absurd (by simp [hb]) hparts.1
            · rfl
          have hcc : changeCounted s.file_list (.destination index newDest) = true := by
            simp only [changeCounted, hget]
            simp [heq, hEn', not_not.mp hparts.2]
          rw [if_neg hOr, hcc]
          simp

lemma replay_acc_shift (queue : List AppFileChange) (l : List AppFile) (a : ℕ) :
    (queue.foldl replayStep (l, a)).2 = a + (queue.foldl replayStep (l, 0)).2 := by
  induction queue generalizing l a with
  | nil => simp
  | cons c rest ih =>
    rw [List.foldl_cons, List.foldl_cons]
    have h1 : (rest.foldl replayStep (replayStep (l, a) c)).2 =
        (a + (if changeCounted l c then 1 else 0)) +
          (rest.foldl replayStep (applyChangeToFiles l c, 0)).2 :=
      ih (applyChangeToFiles l c) (a + (if changeCounted l c then 1 else 0))
    have h2 : (rest.foldl replayStep (replayStep (l, 0) c)).2 =
        (0 + (if changeCounted l c then 1 else 0)) +
          (rest.foldl replayStep (applyChangeToFiles l c, 0)).2 :=
      ih (applyChangeToFiles l c) (0 + (if changeCounted l c then 1 else 0))
    rw [h1, h2]
    omega

lemma foldl_total_changes (queue : List AppFileChange) (st : FlushState) :
    (queue.foldl applyFileChange st).total_changes =
      st.total_changes + (queue.foldl replayStep (st.file_list, 0)).2 := by
  induction queue generalizing st with
  | nil => simp
  | cons c rest ih =>
    rw [List.foldl_cons, List.foldl_cons, ih]
    have h2 : (rest.foldl replayStep (replayStep (st.file_list, 0) c)).2 =
        (0 + (if changeCounted st.file_list c then 1 else 0)) +
          (rest.foldl replayStep (applyChangeToFiles st.file_list c, 0)).2 :=
      replay_acc_shift rest (applyChangeToFiles st.file_list c)
        (0 + (if changeCounted st.file_list c then 1 else 0))
    rw [applyFileChange_total, applyFileChange_file_list, h2]
    omega

/-- C3 amended: `flush` returns the number of entries whose replay modified
the pending-writes index (`changeCounted`), not the number of entries that
changed any state; an entry that sets a field to its current value still
contributes zero. -/
theorem flush_total_changes_eq_pending_write_count (file_list : List AppFile)
    (file_tracker : FileTracker) (change_queue : List AppFileChange) :
    (flush_file_changes_acquired file_list file_tracker change_queue).total_changes =
      pendingWriteChangeCount file_list change_queue := by
  unfold flush_file_changes_acquired pendingWriteChangeCount
  rw [foldl_total_changes]
  simp

/-- C3 counterexample: replaying `SetAction(0, Delete)` against a disabled
`Ignore` record changes the record (and the histogram), yet `flush` returns
0 — so the returned value is not the number of entries that changed state. -/
theorem flush_total_changes_counterexample :
    (flush_file_changes_acquired [⟨"a", none, Action.ignore, "", false⟩] FileTracker.new
      [AppFileChange.setAction 0 Action.delete]).total_changes = 0 ∧
    (flush_file_changes_acquired [⟨"a", none, Action.ignore, "", false⟩] FileTracker.new
      [AppFileChange.setAction 0 Action.delete]).file_list ≠
      [⟨"a", none, Action.ignore, "", false⟩] := by
  constructor
  · decide
  · decide

lemma get?_one {α : Type _} (x : α) (j : ℕ) (g : α) (h : [x].get? j = some g) :
    j = 0 ∧ g = x := by
  rcases j with _ | n
  · exact ⟨rfl, (Option.some.inj h).symm⟩
  · simp [List.get?] at h

lemma c4_pending_writes_eq :
    c4s5.file_tracker.pending_writes = c4s2.file_tracker.pending_writes := by
  have h0 := rebuild_inv [c4file] (by decide)
  have hs2 := flush_preserves_inv c4s1.change_queue
    ⟨c4s1.file_list, c4s1.file_tracker, 0⟩ h0.1 h0.2
  have hs5 := flush_preserves_inv c4s4.change_queue
    ⟨c4s4.file_list, c4s4.file_tracker, 0⟩ hs2.1 hs2.2
  funext d
  apply Finset.ext
  intro j
  rw [show (j ∈ c4s5.file_tracker.pending_writes d) ↔ _ from hs5.2 d j,
    show (j ∈ c4s2.file_tracker.pending_writes d) ↔ _ from hs2.2 d j]
  have hl5 : (c4s4.change_queue.foldl applyFileChange
      ⟨c4s4.file_list, c4s4.file_tracker, 0⟩).file_list =
      [⟨"a.mkv", none, Action.delete, "a.mkv", false⟩] := by decide
  have hl2 : (c4s1.change_queue.foldl applyFileChange
      ⟨c4s1.file_list, c4s1.file_tracker, 0⟩).file_list =
      [⟨"a.mkv", none, Action.rename, "a.mkv", false⟩] := by decide
  rw [hl5, hl2]
  constructor
  · rintro ⟨f, hf, hp⟩
    rcases get?_one _ _ _ hf with ⟨rfl, rfl⟩
    cases hp.2.1
  · rintro ⟨f, hf, hp⟩
    rcases get?_one _ _ _ hf with ⟨rfl, rfl⟩
    cases hp.1

/-- C4: `set_action` to `Rename` on a record with a different action and an
empty `dest` appends the `SetAction` entry followed by the implicit
`Destination(i, src)` entry; `set_action` to `Delete` appends the implicit
`IsEnabled(i, false)` entry; no implicit enable is ever appended.  And the
concrete scenario: from `Ignore`/empty-dest/disabled, `SetAction(Rename)`
then flush yields action `Rename`, `dest = src`, still disabled; then
`SetEnabled(true)`, `SetAction(Delete)` and a second flush yield action
`Delete`, disabled, with `pending_writes` unchanged by the second flush. -/
theorem set_action_queueing_spec :
    (∀ (s : FolderState) (i : ℕ) (f : AppFile), s.file_list.get? i = some f →
      f.action ≠ Action.rename → f.dest = "" →
      AppFileMutableContext.set_action s Action.rename i =
        { s with change_queue := s.change_queue ++
            [AppFileChange.setAction i Action.rename, AppFileChange.destination i f.src] }) ∧
    (∀ (s : FolderState) (i : ℕ) (f : AppFile), s.file_list.get? i = some f →
      AppFileMutableContext.set_action s Action.delete i =
        { s with change_queue := s.change_queue ++
            [AppFileChange.setAction i Action.delete, AppFileChange.isEnabled i false] }) ∧
    (∀ (s : FolderState) (a : Action) (i j : ℕ) (b : Bool),
      AppFileChange.isEnabled j b ∈ (AppFileMutableContext.set_action s a i).change_queue →
      AppFileChange.isEnabled j b ∈ s.change_queue ∨ b = false) ∧
    (c4s2.file_list = [⟨"a.mkv", none, Action.rename, "a.mkv", false⟩] ∧
      c4s5.file_list = [⟨"a.mkv", none, Action.delete, "a.mkv", false⟩] ∧
      c4s5.file_tracker.pending_writes = c4s2.file_tracker.pending_writes) := by
  refine ⟨?_, ?_, ?_, ?_, ?_, c4_pending_writes_eq⟩
  · intro s i f hget hact hdest
    simp only [AppFileMutableContext.set_action, hget]
    rw [if_neg (show ¬Action.rename = Action.delete by decide),
      if_pos ⟨hact, trivial, hdest⟩]
    simp [List.append_assoc]
  · intro s i f hget
    simp only [AppFileMutableContext.set_action, hget]
    rw [if_pos trivial,
      if_neg (show ¬(f.action ≠ Action.rename ∧ Action.delete = Action.rename ∧ f.dest = "")
        from fun hc => absurd hc.2.1 (by decide))]
    simp [List.append_assoc]
  · intro s a i j b hmem
    by_cases hb : b = false
    · exact Or.inr hb
    · left
      have hb' : b = true := by
        cases b
        · exact absurd rfl hb
        · rfl
      subst hb'
      rcases hgq : s.file_list.get? i with _ | file
      · simp only [AppFileMutableContext.set_action, hgq] at hmem
        simp only [List.mem_append, List.mem_singleton] at hmem
        rcases hmem with h | h
        · exact h
        · cases h
      · simp only [AppFileMutableContext.set_action, hgq] at hmem
        split_ifs at hmem
        · simp only [List.mem_append, List.mem_singleton] at hmem
          rcases hmem with ((h | h) | h) | h
          · exact h
          · cases h
          · cases h
          · cases h
        · simp only [List.mem_append, List.mem_singleton] at hmem
          rcases hmem with (h | h) | h
          · exact h
          · cases h
          · cases h
        · simp only [List.mem_append, List.mem_singleton] at hmem
          rcases hmem with (h | h) | h
          · exact h
          · cases h
          · cases h
        · simp only [List.mem_append, List.mem_singleton] at hmem
          rcases hmem with h | h
          · exact h
          · cases h
  · decide
  · decide

/-- Witness for C4: the queueing clauses instantiated at the concrete C4
scenario state. -/
theorem set_action_queueing_spec_witness :
    AppFileMutableContext.set_action c4s0 Action.rename 0 =
      { c4s0 with change_queue := c4s0.change_queue ++
          [AppFileChange.setAction 0 Action.rename, AppFileChange.destination 0 "a.mkv"] } :=
  set_action_queueing_spec.1 c4s0 0 c4file rfl (by decide) rfl

lemma buildFrom_cons (m : EpisodeKey → Option ℕ) (p : ℕ × Episode)
    (rest : List (ℕ × Episode)) :
    buildEpisodeCacheFrom m (p :: rest) =
      buildEpisodeCacheFrom (fun k => if k = episodeKeyOf p.2 then some p.1 else m k) rest :=
  rfl

lemma buildFrom_not_mem (ps : List (ℕ × Episode)) (m : EpisodeKey → Option ℕ)
    (k : EpisodeKey) (h : ∀ p ∈ ps, episodeKeyOf p.2 ≠ k) :
    buildEpisodeCacheFrom m ps k = m k := by
  induction ps generalizing m with
  | nil => rfl
  | cons p rest ih =>
    rw [buildFrom_cons,
      ih (fun k => if k = episodeKeyOf p.2 then some p.1 else m k)
        (fun q hq => h q (List.mem_cons_of_mem _ hq))]
    exact if_neg (fun hk => h p (List.mem_cons_self _ _) hk.symm)

lemma buildFrom_mem (ps : List (ℕ × Episode)) (m : EpisodeKey → Option ℕ)
    (n : ℕ) (e : Episode) (hmem : (n, e) ∈ ps)
    (hnd : (ps.map (fun p => episodeKeyOf p.2)).Nodup) :
    buildEpisodeCacheFrom m ps (episodeKeyOf e) = some n := by
  induction ps generalizing m with
  | nil => cases hmem
  | cons p rest ih =>
    rcases List.mem_cons.mp hmem with heq | hmem'
    · have hkey : episodeKeyOf p.2 = episodeKeyOf e := by rw [← heq]
      have hno : ∀ q ∈ rest, episodeKeyOf q.2 ≠ episodeKeyOf e := by
        intro q hq hk
        have hhead := (List.nodup_cons.mp hnd).1
        have hmemmap : episodeKeyOf p.2 ∈ List.map (fun q => episodeKeyOf q.2) rest := by
          rw [hkey]
          exact List.mem_map.mpr ⟨q, hq, hk⟩
        exact hhead hmemmap
      rw [buildFrom_cons, buildFrom_not_mem rest _ _ hno]
      show (if episodeKeyOf e = episodeKeyOf p.2 then some p.1 else m (episodeKeyOf e)) =
        some n
      rw [if_pos hkey.symm, ← heq]
    · exact ih _ hmem' (List.nodup_cons.mp hnd).2

lemma buildFrom_cases (ps : List (ℕ × Episode)) (m : EpisodeKey → Option ℕ)
    (k : EpisodeKey) (j : ℕ) (h : buildEpisodeCacheFrom m ps k = some j) :
    (∃ e, (j, e) ∈ ps ∧ episodeKeyOf e = k) ∨ m k = some j := by
  induction ps generalizing m with
  | nil => exact Or.inr h
  | cons p rest ih =>
    rw [buildFrom_cons] at h
    rcases ih _ h with ⟨e, hmem, hk⟩ | hm
    · exact Or.inl ⟨e, List.mem_cons_of_mem _ hmem, hk⟩
    · have hm' : (if k = episodeKeyOf p.2 then some p.1 else m k) = some j := hm
      by_cases hk : k = episodeKeyOf p.2
      · rw [if_pos hk] at hm'
        obtain hj : p.1 = j := Option.some.inj hm'
        refine Or.inl ⟨p.2, ?_, hk.symm⟩
        rw [← hj]
        exact List.mem_cons_self p rest
      · rw [if_neg hk] at hm'
        exact Or.inr hm'

lemma enum_map_keys (l : List Episode) :
    (l.enum.map (fun p => episodeKeyOf p.2)) = l.map episodeKeyOf := by
  rw [show (fun p : ℕ × Episode => episodeKeyOf p.2) = episodeKeyOf ∘ Prod.snd from rfl,
    ← List.map_map, List.enum_map_snd]

/-- C7 amended: cache construction always yields an episode sequence sorted
by the `u32` key `season*1000 + episode`; and when the input episodes have
pairwise-distinct `(season, episode)` keys, the key-to-index map sends the
key of the episode at each valid index to exactly that index, and every
mapped index is a valid index carrying the mapped key (so its range is
exactly the valid indices). -/
theorem appFolderCache_new_spec (series : Series) (episodes : List Episode) :
    List.Sorted (fun a b => episodeSortValue a ≤ episodeSortValue b)
      (AppFolderCache.new series episodes).episodes ∧
    ((episodes.map episodeKeyOf).Nodup →
      (∀ i e, (AppFolderCache.new series episodes).episodes.get? i = some e →
        (AppFolderCache.new series episodes).episode_cache (episodeKeyOf e) = some i) ∧
      (∀ k j, (AppFolderCache.new series episodes).episode_cache k = some j →
        ∃ e, (AppFolderCache.new series episodes).episodes.get? j = some e ∧
          episodeKeyOf e = k)) := by
  constructor
  · exact List.sorted_insertionSort _ episodes
  · intro hnd
    have hsortnd : ((List.insertionSort
        (fun a b => episodeSortValue a ≤ episodeSortValue b) episodes).map
          episodeKeyOf).Nodup :=
      (List.Perm.nodup_iff ((List.perm_insertionSort _ episodes).map episodeKeyOf)).mpr hnd
    constructor
    · intro i e hget
      have hmem : (i, e) ∈ (List.insertionSort
          (fun a b => episodeSortValue a ≤ episodeSortValue b) episodes).enum := by
        rw [List.mem_enum_iff_getElem?]
        rw [← List.get?_eq_getElem?]
        exact hget
      exact buildFrom_mem _ _ i e hmem (by rw [enum_map_keys]; exact hsortnd)
    · intro k j h
      rcases buildFrom_cases _ _ k j h with ⟨e, hmem, hk⟩ | hm
      · refine ⟨e, ?_, hk⟩
        rw [List.mem_enum_iff_getElem?] at hmem
        rw [← List.get?_eq_getElem?] at hmem
        exact hmem
      · cases hm

/-- C7 counterexample: with two episodes sharing the key `(1, 1)`, the
key-to-index map sends the key of the episode at index 0 to index 1, not 0
— the claimed `episode_cache[(episodes[i].season, episodes[i].episode)] = i`
fails, and the map range misses index 0. -/
theorem appFolderCache_new_counterexample :
    (AppFolderCache.new ⟨1, "X"⟩
        [⟨1, 1, 1, none⟩, ⟨2, 1, 1, none⟩]).episodes.get? 0 = some ⟨1, 1, 1, none⟩ ∧
    (AppFolderCache.new ⟨1, "X"⟩
        [⟨1, 1, 1, none⟩, ⟨2, 1, 1, none⟩]).episode_cache
      (episodeKeyOf ⟨1, 1, 1, none⟩) ≠ some 0 := by
  constructor
  · decide
  · decide

/-- Witness for C7 at a concrete distinct-key episode list. -/
theorem appFolderCache_new_spec_witness :
    (AppFolderCache.new ⟨1, "X"⟩
        [⟨1, 2, 1, none⟩, ⟨2, 1, 1, none⟩]).episode_cache
      (episodeKeyOf ⟨2, 1, 1, none⟩) = some 0 :=
  ((appFolderCache_new_spec ⟨1, "X"⟩ [⟨1, 2, 1, none⟩, ⟨2, 1, 1, none⟩]).2
      (by decide)).1 0 ⟨2, 1, 1, none⟩ (by decide)

lemma decode_encode (p : String × Bookmark) : decodePair (encodePair p) = (p.1, p.2) := by
  rcases p with ⟨id, r, u, fv⟩
  cases r <;> cases u <;> cases fv <;> rfl

lemma eq_of_mem_nodup_keys {α β : Type _} {l : List (α × β)}
    (hnd : (l.map Prod.fst).Nodup) {p q : α × β} (hp : p ∈ l) (hq : q ∈ l)
    (hk : p.1 = q.1) : p = q := by
  induction l with
  | nil => cases hp
  | cons x rest ih =>
    rcases List.mem_cons.mp hp with rfl | hp' <;> rcases List.mem_cons.mp hq with rfl | hq'
    · rfl
    · exact absurd (List.mem_map.mpr ⟨q, hq', hk.symm⟩) (List.nodup_cons.mp hnd).1
    · exact absurd (List.mem_map.mpr ⟨p, hp', hk⟩) (List.nodup_cons.mp hnd).1
    · exact ih (List.nodup_cons.mp hnd).2 hp' hq'

lemma serialize_ids_sublist (bs : List (String × Bookmark)) :
    ((bs.filterMap serializeEntry).map BookmarkInternal.id).Sublist
      (bs.map Prod.fst) := by
  induction bs with
  | nil => simp
  | cons p rest ih =>
    rw [List.filterMap_cons, List.map_cons]
    cases hf : serializeEntry p with
    | none => exact ih.cons _
    | some e =>
      have hid : e.id = p.1 := by
        unfold serializeEntry at hf
        split_ifs at hf
        cases hf
        rfl
      rw [List.map_cons, hid]
      exact ih.cons₂ _

lemma deserialize_fold (entries : List BookmarkInternal)
    (t0 : List (String × Bookmark))
    (hdisj : ∀ e ∈ entries, ∀ p ∈ t0, p.1 ≠ e.id)
    (hnd : (entries.map BookmarkInternal.id).Nodup) :
    entries.foldl (fun t e => bookmarkTableInsert t e.id (decodeB e)) t0 =
      t0 ++ entries.map decodePair := by
  induction entries generalizing t0 with
  | nil => simp
  | cons e rest ih =>
    rw [List.foldl_cons]
    have hany : t0.any (fun p => decide (p.1 = e.id)) = false := by
      rw [List.any_eq_false]
      intro p hp
      simp only [decide_eq_true_eq]
      exact hdisj e (List.mem_cons_self _ _) p hp
    have hins : bookmarkTableInsert t0 e.id (decodeB e) = t0 ++ [(e.id, decodeB e)] := by
      unfold bookmarkTableInsert
      rw [hany]
      simp
    rw [hins, ih (t0 ++ [(e.id, decodeB e)]) ?_ (List.nodup_cons.mp hnd).2]
    · rw [List.append_assoc]
      rfl
    · intro e' he' p hp
      rcases List.mem_append.mp hp with hp0 | hp1
      · exact hdisj e' (List.mem_cons_of_mem _ he') p hp0
      · have hpe : p = (e.id, decodeB e) := by simpa using hp1
        rw [hpe]
        intro hk
        have hk' : e.id = e'.id := hk
        exact (List.nodup_cons.mp hnd).1 (by
          rw [hk']
          exact List.mem_map.mpr ⟨e', he', rfl⟩)

lemma find_decoded (entries : List BookmarkInternal) (e : BookmarkInternal)
    (hmem : e ∈ entries) (hnd : (entries.map BookmarkInternal.id).Nodup) :
    (entries.map decodePair).find? (fun p => decide (p.1 = e.id)) =
      some (decodePair e) := by
  induction entries with
  | nil => cases hmem
  | cons x rest ih =>
    rw [List.map_cons]
    by_cases hx : x.id = e.id
    · have hxe : x = e := by
        rcases List.mem_cons.mp hmem with rfl | hm'
        · rfl
        · exact absurd (hx ▸ List.mem_map.mpr ⟨e, hm', rfl⟩) (List.nodup_cons.mp hnd).1
      subst hxe
      rw [List.find?_cons_of_pos _ (by simp [decodePair])]
    · rw [List.find?_cons_of_neg _ (by simp [decodePair, hx])]
      rcases List.mem_cons.mp hmem with rfl | hm'
      · exact absurd rfl hx
      · exact ih hm' (List.nodup_cons.mp hnd).2

/-- C8: for every bookmark table (with the `HashMap`'s unique keys),
all-false entries are absent from the serialized output, no serialized
field is `Some(false)`, and every entry with a set flag survives the
round trip with the same id and flags.  (JSON text encoding of the entry
vector is injective and total, so it is modelled as the identity.) -/
theorem bookmarks_roundtrip (table : BookmarkTable)
    (hnd : (table.bookmarks.map Prod.fst).Nodup) :
    (∀ p ∈ table.bookmarks, p.2.is_any_selected = false →
      ∀ e ∈ serialize_bookmarks table, e.id ≠ p.1) ∧
    (∀ e ∈ serialize_bookmarks table,
      e.is_read ≠ some false ∧ e.is_unread ≠ some false ∧ e.is_favourite ≠ some false) ∧
    (∀ p ∈ table.bookmarks, p.2.is_any_selected = true →
      bookmarkLookup (deserialize_bookmarks (serialize_bookmarks table)) p.1 =
        some p.2) := by
  refine ⟨?_, ?_, ?_⟩
  · intro p hp hoff e hmem hid
    rcases List.mem_filterMap.mp hmem with ⟨q, hq, hfq⟩
    unfold serializeEntry at hfq
    split_ifs at hfq with hsel
    cases hfq
    have hqp : q = p := eq_of_mem_nodup_keys hnd hq hp hid
    rw [hqp, hoff] at hsel
    cases hsel
  · intro e hmem
    rcases List.mem_filterMap.mp hmem with ⟨q, hq, hfq⟩
    unfold serializeEntry at hfq
    split_ifs at hfq
    cases hfq
    refine ⟨?_, ?_, ?_⟩ <;> simp only [encodePair] <;> split_ifs <;> simp
  · intro p hp hsel
    have hfe : serializeEntry p = some (encodePair p) := by
      unfold serializeEntry
      rw [if_pos hsel]
    have hmem : encodePair p ∈ serialize_bookmarks table :=
      List.mem_filterMap.mpr ⟨p, hp, hfe⟩
    have hnds : ((serialize_bookmarks table).map BookmarkInternal.id).Nodup :=
      (serialize_ids_sublist table.bookmarks).nodup hnd
    have hfold := deserialize_fold (serialize_bookmarks table) []
      (by intro e _ q hq0; cases hq0) hnds
    unfold bookmarkLookup deserialize_bookmarks
    rw [hfold, List.nil_append]
    have hfind := find_decoded (serialize_bookmarks table) _ hmem hnds
    rw [show (encodePair p).id = p.1 from rfl] at hfind
    rw [hfind, decode_encode]
    rfl

/-- Witness for C8 at a concrete two-entry table. -/
theorem bookmarks_roundtrip_witness :
    bookmarkLookup
      (deserialize_bookmarks (serialize_bookmarks
        ⟨[("a", ⟨true, false, false⟩), ("b", ⟨false, false, false⟩)]⟩))
      "a" = some ⟨true, false, false⟩ :=
  (bookmarks_roundtrip ⟨[("a", ⟨true, false, false⟩), ("b", ⟨false, false, false⟩)]⟩
      (by decide)).2.2 ("a", ⟨true, false, false⟩) (by decide) rfl

/-- C5: the claim says pages `next..=last` inclusive are fetched and
concatenated; the code iterates the exclusive range `(next..last)`, so with
`next = last = 2` it fetches nothing beyond page 1 and the last page's
episodes are dropped. -/
theorem get_episodes_drops_last_page :
    get_episodes c5fetch = .ok [⟨100, 1, 1, none⟩] ∧
    c5fetch 2 = .ok ⟨some [⟨200, 1, 2, none⟩], some ⟨none, some 2⟩⟩ := by
  constructor
  · rfl
  · rfl

/-- C6: the claim says `clean_episode_title` strips anything inside
`(...)` or `[...]`; but the bracket characters themselves are removed by
`REMOVE_REGEX` before `REMOVE_TAGS` runs, so the bracket-interior pass can
never match and the interior survives: on `"(abc)"` the output is `"abc"`,
which contains every character of the bracketed content. -/
theorem clean_episode_title_keeps_bracket_interior :
    clean_episode_title "(abc)" = "abc" := by rfl

lemma intentShape_ite (c : Prop) [Decidable c] (r1 r2 : FileIntent)
    (h1 : IntentShape r1) (h2 : IntentShape r2) : IntentShape (if c then r1 else r2) := by
  split_ifs
  · exact h1
  · exact h2

/-- C10 amended: the classifier's `dest` is empty whenever the action is
not `Rename`; and its `descriptor` is `Some` exactly when the resulting
action is `Rename` or `Complete` — i.e. exactly when classification reached
the parsing stage and the parser succeeded (so `Complete` intents do carry
a descriptor).  It is not `Some` for every parseable filename: a delete or
whitelist rule can fire first. -/
theorem get_file_intent_shape (path_str : String) (rules : FilterRules)
    (series : Series) (episodes : List Episode)
    (episode_cache : EpisodeKey → Option ℕ) :
    ((get_file_intent path_str rules series episodes episode_cache).action ≠
        Action.rename →
      (get_file_intent path_str rules series episodes episode_cache).dest = "") ∧
    ((get_file_intent path_str rules series episodes episode_cache).descriptor.isSome ↔
      ((get_file_intent path_str rules series episodes episode_cache).action =
          Action.rename ∨
        (get_file_intent path_str rules series episodes episode_cache).action =
          Action.complete)) := by
  suffices h : IntentShape (get_file_intent path_str rules series episodes episode_cache) by
    exact ⟨h.1, h.2⟩
  unfold get_file_intent
  repeat' split
  all_goals (first
    | exact ⟨fun _ => rfl, by simp⟩
    | refine intentShape_ite _ _ _ ⟨fun _ => rfl, by simp⟩
        ⟨fun h => absurd rfl h, by simp⟩)

/-- C10 counterexample: on a blacklisted but parseable file the intent is
`Delete` with no descriptor although the filename parser succeeds — so
"descriptor is `Some` exactly when the filename parser succeeded" fails as
stated over all inputs. -/
theorem get_file_intent_descriptor_counterexample :
    (get_file_intent "a.s01e02.nfo" c10rules ⟨1, "X"⟩ []
      (fun _ => none)).descriptor = none ∧
    (get_file_intent "a.s01e02.nfo" c10rules ⟨1, "X"⟩ []
      (fun _ => none)).action = Action.delete ∧
    (get_descriptor "a.s01e02.nfo").isSome = true := by
  refine ⟨?_, ?_, ?_⟩
  · rfl
  · rfl
  · rfl

/-- Witness for C10 on the blacklisted input: its action is not `Rename`,
so its `dest` is empty. -/
theorem get_file_intent_shape_witness :
    (get_file_intent "a.s01e02.nfo" c10rules ⟨1, "X"⟩ [] (fun _ => none)).dest = "" :=
  (get_file_intent_shape "a.s01e02.nfo" c10rules ⟨1, "X"⟩ [] (fun _ => none)).1
    (by decide)

end Renamer

